import Mathlib

/-!
# Block header codec (src/chain/header.cpp)

A shallow embedding of `libbitcoin::chain::header`: the record, `is_valid`, `reset`,
`from_data`, `to_data`, `serialized_size`, `hash`, and the two comparison operators,
followed by the properties proved about them.

Conventions.
* A byte is a `Nat` below 256, a byte buffer (`data_chunk`) a `List Nat`.
* `uint32_t` / `uint64_t` members are `Nat`s; a store into one is written with an
  explicit `% 2 ^ 32` / `% 2 ^ 64`.
* `hash_digest` is a list of 32 bytes.  `header.wf` collects the ranges the C++ types
  impose on a record.
* The byte cursor (`reader`), the byte sink (`writer`), the compact-integer codec, the
  digest constant and the hash engine live outside `header.cpp`; they are modelled
  from their interface contracts and marked as such.
-/

namespace libbitcoin

/-! ## Collaborators of the codec -/

/-- Modelled from the spec: `hash_size`, the width of a digest ("fixed-length digest,
32 bytes"); the constant is declared outside `header.cpp`. -/
def hash_size : Nat := 32

/-- Modelled from the spec: `null_hash`, the all-zero digest ("all-zero digests"). -/
def null_hash : List Nat := List.replicate hash_size 0

/-- Every element of a buffer is a byte. -/
def bytes_ok (data : List Nat) : Prop := ∀ b ∈ data, b < 256

instance (data : List Nat) : Decidable (bytes_ok data) := by
  unfold bytes_ok; infer_instance

/-- A list is a `hash_digest`: exactly `hash_size` bytes. -/
def hash_ok (h : List Nat) : Prop := h.length = hash_size ∧ bytes_ok h

instance (h : List Nat) : Decidable (hash_ok h) := by
  unfold hash_ok; infer_instance

/-- Modelled from the spec: the unsigned value of a byte string read little-endian
("4-byte little-endian"): the first byte is the least significant. -/
def from_le : List Nat → Nat
  | [] => 0
  | b :: bs => b + 256 * from_le bs

/-- Modelled from the spec: the `n`-byte little-endian encoding of `v` (the value is
truncated to `n` bytes, as a fixed-width store does). -/
def to_le : Nat → Nat → List Nat
  | 0, _ => []
  | n + 1, v => v % 256 :: to_le n (v / 256)

/-- Modelled from the spec: what a cursor hands back from a read that underruns.  The
spec gives the cursor a validity check but fixes no value for a read that failed, so
the value is left to the cursor: `u n unread` is the byte string delivered by a read of
`n` bytes that could not be served, `unread` being the bytes the read could still get
from the source (fewer than `n`; none once the cursor has failed). -/
abbrev underrun := Nat → List Nat → List Nat

/-- A cursor that delivers nothing but zero bytes once a read cannot be served. -/
def zero_fill : underrun := fun n _ => List.replicate n 0

/-- A cursor that delivers the bytes the failing read could still get, then zero bytes
(the behaviour of a byte-wise stream read into a zeroed buffer). -/
def short_fill : underrun := fun n unread => unread.take n ++ List.replicate (n - unread.length) 0

/-- Modelled from the spec: the input cursor (`reader`): the unread bytes and the
overall validity flag that `result = source` inspects.  The flag is sticky: once a
read has failed every later read fails too. -/
structure reader where
  bytes : List Nat
  valid : Bool
deriving DecidableEq

/-- Modelled from the spec: `read_fixed_bytes(n)`.  A valid cursor holding at least `n`
unread bytes delivers them and advances.  A valid cursor holding fewer fails: it becomes
invalid and delivers what its underrun behaviour `u` makes of the bytes that were left.
A cursor that is already invalid stays invalid, takes nothing more from the source and
delivers what `u` makes of no bytes. -/
def reader.read_bytes (u : underrun) (n : Nat) (source : reader) : List Nat × reader :=
  if source.valid = true ∧ n ≤ source.bytes.length then
    (source.bytes.take n, ⟨source.bytes.drop n, true⟩)
  else if source.valid = true then
    (u n source.bytes, ⟨source.bytes, false⟩)
  else
    (u n [], ⟨source.bytes, false⟩)

/-- Modelled from the spec: `read_fixed_uint(width, little_endian)`; the value is
stored into an unsigned integer of `n` bytes. -/
def reader.read_little_endian (u : underrun) (n : Nat) (source : reader) : Nat × reader :=
  let r := source.read_bytes u n
  (from_le r.1 % 256 ^ n, r.2)

/-- Modelled from the spec: the cursor method `read_4_bytes_little_endian`, a
`read_fixed_uint` of width 4. -/
def reader.read_4_bytes_little_endian (u : underrun) (source : reader) : Nat × reader :=
  source.read_little_endian u 4

/-- Modelled from the spec: the cursor method `read_hash`, a `read_fixed_bytes` of
`hash_size` raw bytes. -/
def reader.read_hash (u : underrun) (source : reader) : List Nat × reader :=
  source.read_bytes u hash_size

/-- Modelled from the spec: `read_variable_uint()`, the compact integer: a leading byte
below 253 is the value; 253, 254 and 255 announce a little-endian value of 2, 4 and 8
bytes. -/
def reader.read_variable_uint_little_endian (u : underrun) (source : reader) : Nat × reader :=
  let r := source.read_little_endian u 1
  if r.1 < 0xfd then r
  else if r.1 = 0xfd then r.2.read_little_endian u 2
  else if r.1 = 0xfe then r.2.read_little_endian u 4
  else r.2.read_little_endian u 8

/-- Modelled from the spec: the output sink (`writer`) is the byte string written so
far; `write_fixed_bytes` appends. -/
abbrev writer := List Nat

/-- Modelled from the spec: the sink method `write_4_bytes_little_endian`, a
`write_fixed_uint` of width 4. -/
def writer.write_4_bytes_little_endian (sink : writer) (v : Nat) : writer :=
  sink ++ to_le 4 v

/-- Modelled from the spec: the sink method `write_hash`, a `write_fixed_bytes` of the
digest, verbatim. -/
def writer.write_hash (sink : writer) (h : List Nat) : writer :=
  sink ++ h

/-- Modelled from the spec: `write_variable_uint`, the compact integer: 1 byte for
values below 253, a marker byte and 2, 4 or 8 little-endian bytes for values that fit
16 bits, 32 bits, or neither. -/
def writer.write_variable_uint_little_endian (sink : writer) (v : Nat) : writer :=
  if v < 0xfd then sink ++ [v]
  else if v ≤ 0xffff then sink ++ 0xfd :: to_le 2 v
  else if v ≤ 0xffffffff then sink ++ 0xfe :: to_le 4 v
  else sink ++ 0xff :: to_le 8 v

/-- Modelled from the spec: `variable_uint_size`: "1 byte for values below 253, 3 bytes
for values representable in 16 bits, 5 bytes for 32-bit range, 9 bytes otherwise". -/
def variable_uint_size (v : Nat) : Nat :=
  if v < 0xfd then 1
  else if v ≤ 0xffff then 3
  else if v ≤ 0xffffffff then 5
  else 9

/-- Modelled from the spec: `bitcoin_hash`, the double hash: the hash engine applied
twice in sequence.  The engine itself is a parameter. -/
def bitcoin_hash (engine : List Nat → List Nat) (data : List Nat) : List Nat :=
  engine (engine data)

/-! ## The record -/

/-- The `header` record, members in declaration (wire) order. -/
structure header where
  version : Nat
  previous_block_hash : List Nat
  merkle : List Nat
  timestamp : Nat
  bits : Nat
  nonce : Nat
  transaction_count : Nat
deriving DecidableEq

/-- The ranges the member types impose: four `uint32_t`, two `hash_digest`, one
`uint64_t`. -/
def header.wf (h : header) : Prop :=
  h.version < 2 ^ 32 ∧ hash_ok h.previous_block_hash ∧ hash_ok h.merkle ∧
  h.timestamp < 2 ^ 32 ∧ h.bits < 2 ^ 32 ∧ h.nonce < 2 ^ 32 ∧
  h.transaction_count < 2 ^ 64

instance (h : header) : Decidable h.wf := by
  unfold header.wf; infer_instance

/-- Modelled from the spec: the null record, "all fixed fields at their zero/empty
default (zero integers, all-zero digests) and transaction_count zero". -/
def null_header : header :=
  ⟨0, null_hash, null_hash, 0, 0, 0, 0⟩

/-- `header::is_valid`, lines 58-66. -/
def header.is_valid (self : header) : Bool :=
  (self.version != 0) ||
  (self.previous_block_hash != null_hash) ||
  (self.merkle != null_hash) ||
  (self.timestamp != 0) ||
  (self.bits != 0) ||
  (self.nonce != 0)

/-- `header::reset`, lines 68-76: six assignments; `transaction_count` is not among
them.  `fill(0)` overwrites each of the `hash_size` bytes of a digest with zero. -/
def header.reset (self : header) : header :=
  { self with
    version := 0
    previous_block_hash := List.replicate hash_size 0
    merkle := List.replicate hash_size 0
    timestamp := 0
    bits := 0
    nonce := 0 }

/-- `header::from_data(reader&, bool)`, lines 91-110.  Returns the boolean result, the
record afterwards and the cursor afterwards. -/
def header.from_data (u : underrun) (self : header) (source : reader)
    (with_transaction_count : Bool) : Bool × header × reader :=
  let self := self.reset
  let r1 := source.read_4_bytes_little_endian u
  let self := { self with version := r1.1 }
  let r2 := r1.2.read_hash u
  let self := { self with previous_block_hash := r2.1 }
  let r3 := r2.2.read_hash u
  let self := { self with merkle := r3.1 }
  let r4 := r3.2.read_4_bytes_little_endian u
  let self := { self with timestamp := r4.1 }
  let r5 := r4.2.read_4_bytes_little_endian u
  let self := { self with bits := r5.1 }
  let r6 := r5.2.read_4_bytes_little_endian u
  let self := { self with nonce := r6.1 }
  let self := { self with transaction_count := 0 }
  let r7 := r6.2.read_variable_uint_little_endian u
  let self := if with_transaction_count then { self with transaction_count := r7.1 } else self
  let source := if with_transaction_count then r7.2 else r6.2
  let result := source.valid
  let self := if !result then self.reset else self
  (result, self, source)

/-- `header::from_data(const data_chunk&, bool)`, lines 78-89: a fresh cursor over the
buffer, then the cursor form. -/
def header.from_data_chunk (u : underrun) (self : header) (data : List Nat)
    (with_transaction_count : Bool) : Bool × header × reader :=
  self.from_data u ⟨data, true⟩ with_transaction_count

/-- `header::to_data(writer&, bool)`, lines 129-140. -/
def header.to_data_writer (self : header) (sink : writer)
    (with_transaction_count : Bool) : writer :=
  let sink := sink.write_4_bytes_little_endian self.version
  let sink := sink.write_hash self.previous_block_hash
  let sink := sink.write_hash self.merkle
  let sink := sink.write_4_bytes_little_endian self.timestamp
  let sink := sink.write_4_bytes_little_endian self.bits
  let sink := sink.write_4_bytes_little_endian self.nonce
  if with_transaction_count then
    sink.write_variable_uint_little_endian self.transaction_count
  else sink

/-- `header::serialized_size`, lines 142-149. -/
def header.serialized_size (self : header) (with_transaction_count : Bool) : Nat :=
  let size := 80
  let size := if with_transaction_count then
    size + variable_uint_size self.transaction_count else size
  size

/-- `header::to_data(bool)`, lines 112-120: the writer form run on an empty buffer;
`BITCOIN_ASSERT` is fatal, so a size mismatch yields no buffer (`none`). -/
def header.to_data (self : header) (with_transaction_count : Bool) : Option (List Nat) :=
  let data := self.to_data_writer [] with_transaction_count
  if data.length = self.serialized_size with_transaction_count then some data else none

/-- `header::hash`, lines 151-154: the double hash of `to_data(false)`. -/
def header.hash (engine : List Nat → List Nat) (self : header) : Option (List Nat) :=
  (self.to_data false).map (bitcoin_hash engine)

/-- `operator==`, lines 156-165. -/
def header.eq (left right : header) : Bool :=
  (left.version == right.version)
    && (left.previous_block_hash == right.previous_block_hash)
    && (left.merkle == right.merkle)
    && (left.timestamp == right.timestamp)
    && (left.bits == right.bits)
    && (left.nonce == right.nonce)
    && (left.transaction_count == right.transaction_count)

/-- `operator!=`, lines 167-170. -/
def header.ne (left right : header) : Bool :=
  !(left.eq right)

/-- `header::factory_from_data(const data_chunk&, bool)`, lines 34-40: a default-constructed
`instance`, decoded into and returned; the boolean of `from_data` is dropped.  The
member values of a default-constructed record are fixed by the class declaration, which
is outside `header.cpp`, so the fresh instance is the parameter `fresh`. -/
def header.factory_from_data (u : underrun) (fresh : header) (data : List Nat)
    (with_transaction_count : Bool) : header :=
  (fresh.from_data_chunk u data with_transaction_count).2.1

/-- The cursor as `from_data` leaves it after the six fixed-width reads of lines
95-100 (the cursor component of that first part of the body). -/
def reader.after_fixed (u : underrun) (source : reader) : reader :=
  let r1 := source.read_4_bytes_little_endian u
  let r2 := r1.2.read_hash u
  let r3 := r2.2.read_hash u
  let r4 := r3.2.read_4_bytes_little_endian u
  let r5 := r4.2.read_4_bytes_little_endian u
  let r6 := r5.2.read_4_bytes_little_endian u
  r6.2

/-! ## Reference notions used to state the properties -/

/-- The four bytes of a 32-bit value, least significant first. -/
def le32 (v : Nat) : List Nat :=
  [v % 256, v / 256 % 256, v / 65536 % 256, v / 16777216 % 256]

/-- The little-endian unsigned 32-bit value of the four bytes of `data` at offset
`off`. -/
def le32_at (data : List Nat) (off : Nat) : Nat :=
  data.getD off 0 + 256 * data.getD (off + 1) 0 + 65536 * data.getD (off + 2) 0
    + 16777216 * data.getD (off + 3) 0

/-- The bytes `off .. off + len - 1` of a buffer. -/
def slice (data : List Nat) (off len : Nat) : List Nat :=
  (data.drop off).take len

/-- Total width of a compact integer, as selected by its leading byte: 1, 3, 5 or 9. -/
def compact_width (lead : Nat) : Nat :=
  if lead < 253 then 1 else if lead = 253 then 3 else if lead = 254 then 5 else 9

/-- The buffer starts with a complete compact integer. -/
def compact_complete (rest : List Nat) : Bool :=
  match rest with
  | [] => false
  | lead :: _ => decide (compact_width lead ≤ rest.length)

/-- The value of the compact integer a buffer starts with: a leading byte below 253 is
the value; after 253, 254 or 255 the value is the next 2, 4 or 8 bytes, little-endian. -/
def compact_value (rest : List Nat) : Nat :=
  match rest with
  | [] => 0
  | lead :: t =>
    if lead < 253 then lead
    else if lead = 253 then from_le (t.take 2)
    else if lead = 254 then from_le (t.take 4)
    else from_le (t.take 8)

/-- The compact integer a buffer starts with is in minimal form: the width its leading
byte selects is the width the size function assigns to its value. -/
def compact_minimal (rest : List Nat) : Bool :=
  match rest with
  | [] => false
  | lead :: _ => decide (compact_width lead = variable_uint_size (compact_value rest))

/-- The number of bytes of `data` a cursor that now stands at `source` has consumed. -/
def consumed (data : List Nat) (source : reader) : Nat :=
  data.length - source.bytes.length

/-- The buffer is shorter than a decode in the given mode requires: fewer than 80 bytes,
or, with the flag on, 80 bytes not followed by a complete compact integer. -/
def too_short (data : List Nat) (f : Bool) : Prop :=
  data.length < 80 ∨ (f = true ∧ compact_complete (data.drop 80) = false)

instance (data : List Nat) (f : Bool) : Decidable (too_short data f) := by
  unfold too_short; infer_instance

/-- Every byte of a digest is zero. -/
def all_zero (h : List Nat) : Prop := ∀ b ∈ h, b = 0

instance (h : List Nat) : Decidable (all_zero h) := by
  unfold all_zero; infer_instance

/-- The six fixed fields of two records agree. -/
def same_fixed (a b : header) : Prop :=
  a.version = b.version ∧ a.previous_block_hash = b.previous_block_hash ∧
  a.merkle = b.merkle ∧ a.timestamp = b.timestamp ∧ a.bits = b.bits ∧ a.nonce = b.nonce

instance (a b : header) : Decidable (same_fixed a b) := by
  unfold same_fixed; infer_instance

/-- The genesis block header used in the examples. -/
def genesis : header :=
  ⟨1, null_hash,
   [0x3b, 0xa3, 0xed, 0xfd, 0x7a, 0x7b, 0x12, 0xb2, 0x7a, 0xc7, 0x2c, 0x3e, 0x67, 0x76, 0x8f, 0x61,
    0x7f, 0xc8, 0x1b, 0xc3, 0x88, 0x8a, 0x51, 0x32, 0x3a, 0x9f, 0xb8, 0xaa, 0x4b, 0x1e, 0x5e, 0x4a],
   1231006505, 0x1d00ffff, 2083236893, 1⟩

/-! ## Little-endian strings -/

theorem to_le_length (n v : Nat) : (to_le n v).length = n := by
  induction n generalizing v with
  | zero => rfl
  | succ n ih => simp [to_le, ih]

theorem to_le_bytes_ok (n v : Nat) : bytes_ok (to_le n v) := by
  induction n generalizing v with
  | zero => intro b hb; simp [to_le] at hb
  | succ n ih =>
    intro b hb
    simp only [to_le, List.mem_cons] at hb
    rcases hb with rfl | hb
    · exact Nat.mod_lt _ (by norm_num)
    · exact ih _ b hb

theorem from_le_to_le (n v : Nat) : from_le (to_le n v) = v % 256 ^ n := by
  induction n generalizing v with
  | zero => simp [to_le, from_le, Nat.mod_one]
  | succ n ih =>
    simp only [to_le, from_le, ih, pow_succ]
    rw [Nat.mul_comm (256 ^ n) 256, Nat.mod_mul]

theorem from_le_lt (l : List Nat) (h : bytes_ok l) : from_le l < 256 ^ l.length := by
  induction l with
  | nil => simp [from_le]
  | cons b bs ih =>
    have hb : b < 256 := h b (List.mem_cons_self _ _)
    have hbs : from_le bs < 256 ^ bs.length := ih (fun x hx => h x (List.mem_cons_of_mem _ hx))
    simp only [from_le, List.length_cons, pow_succ]
    nlinarith

theorem to_le_from_le (l : List Nat) (h : bytes_ok l) : to_le l.length (from_le l) = l := by
  induction l with
  | nil => rfl
  | cons b bs ih =>
    have hb : b < 256 := h b (List.mem_cons_self _ _)
    have hbs := ih (fun x hx => h x (List.mem_cons_of_mem _ hx))
    simp only [List.length_cons, to_le, from_le]
    have h1 : (b + 256 * from_le bs) % 256 = b := by omega
    have h2 : (b + 256 * from_le bs) / 256 = from_le bs := by omega
    rw [h1, h2, hbs]

theorem bytes_ok_append {a b : List Nat} : bytes_ok (a ++ b) ↔ bytes_ok a ∧ bytes_ok b := by
  simp only [bytes_ok, List.mem_append]
  constructor
  · intro h; exact ⟨fun x hx => h x (Or.inl hx), fun x hx => h x (Or.inr hx)⟩
  · rintro ⟨h1, h2⟩ x (hx | hx)
    · exact h1 x hx
    · exact h2 x hx

theorem bytes_ok_take {l : List Nat} (h : bytes_ok l) (n : Nat) : bytes_ok (l.take n) :=
  fun x hx => h x (List.mem_of_mem_take hx)

theorem bytes_ok_drop {l : List Nat} (h : bytes_ok l) (n : Nat) : bytes_ok (l.drop n) :=
  fun x hx => h x (List.mem_of_mem_drop hx)

/-! ## The cursor -/

theorem read_bytes_enough (u : underrun) (n : Nat) (bs : List Nat) (h : n ≤ bs.length) :
    reader.read_bytes u n ⟨bs, true⟩ = (bs.take n, ⟨bs.drop n, true⟩) := by
  simp [reader.read_bytes, h]

theorem read_bytes_short (u : underrun) (n : Nat) (bs : List Nat) (h : bs.length < n) :
    reader.read_bytes u n ⟨bs, true⟩ = (u n bs, ⟨bs, false⟩) := by
  simp [reader.read_bytes, Nat.not_le.mpr h]

theorem read_bytes_invalid (u : underrun) (n : Nat) (bs : List Nat) :
    reader.read_bytes u n ⟨bs, false⟩ = (u n [], ⟨bs, false⟩) := by
  simp [reader.read_bytes]

theorem read_bytes_append (u : underrun) (a rest : List Nat) :
    reader.read_bytes u a.length ⟨a ++ rest, true⟩ = (a, ⟨rest, true⟩) := by
  simp [reader.read_bytes]

theorem read_little_endian_enough (u : underrun) (n : Nat) (bs : List Nat)
    (h : n ≤ bs.length) :
    reader.read_little_endian u n ⟨bs, true⟩
      = (from_le (bs.take n) % 256 ^ n, ⟨bs.drop n, true⟩) := by
  simp [reader.read_little_endian, read_bytes_enough u n bs h]

theorem read_little_endian_short (u : underrun) (n : Nat) (bs : List Nat)
    (h : bs.length < n) :
    reader.read_little_endian u n ⟨bs, true⟩
      = (from_le (u n bs) % 256 ^ n, ⟨bs, false⟩) := by
  simp [reader.read_little_endian, read_bytes_short u n bs h]

theorem read_little_endian_invalid (u : underrun) (n : Nat) (bs : List Nat) :
    reader.read_little_endian u n ⟨bs, false⟩
      = (from_le (u n []) % 256 ^ n, ⟨bs, false⟩) := by
  simp [reader.read_little_endian, read_bytes_invalid]

theorem read_little_endian_to_le (u : underrun) (n v : Nat) (rest : List Nat)
    (hv : v < 256 ^ n) :
    reader.read_little_endian u n ⟨to_le n v ++ rest, true⟩ = (v, ⟨rest, true⟩) := by
  have h := read_bytes_append u (to_le n v) rest
  rw [to_le_length] at h
  simp [reader.read_little_endian, h, from_le_to_le, Nat.mod_eq_of_lt hv]

theorem read_variable_uint_invalid (u : underrun) (bs : List Nat) :
    (reader.read_variable_uint_little_endian u ⟨bs, false⟩).2 = ⟨bs, false⟩ := by
  simp only [reader.read_variable_uint_little_endian, read_little_endian_invalid]
  split_ifs <;> rfl

theorem read_variable_uint_write (u : underrun) (v : Nat) (rest : List Nat)
    (hv : v < 2 ^ 64) :
    reader.read_variable_uint_little_endian u
        ⟨writer.write_variable_uint_little_endian [] v ++ rest, true⟩
      = (v, ⟨rest, true⟩) := by
  unfold writer.write_variable_uint_little_endian
  split_ifs with h1 h2 h3
  · have hr : reader.read_little_endian u 1 ⟨[v] ++ rest, true⟩ = (v, ⟨rest, true⟩) := by
      have := read_little_endian_to_le u 1 v rest (by omega)
      simpa [to_le, Nat.mod_eq_of_lt (show v < 256 by omega)] using this
    simp only [List.nil_append, List.singleton_append] at hr ⊢
    simp [reader.read_variable_uint_little_endian, hr, h1]
  · have hr : reader.read_little_endian u 1 ⟨[0xfd] ++ (to_le 2 v ++ rest), true⟩
        = (0xfd, ⟨to_le 2 v ++ rest, true⟩) := by
      have := read_little_endian_to_le u 1 0xfd (to_le 2 v ++ rest) (by norm_num)
      simpa [to_le] using this
    simp only [List.nil_append, List.cons_append, List.singleton_append] at hr ⊢
    simp only [reader.read_variable_uint_little_endian, hr]
    simp [read_little_endian_to_le u 2 v rest (by omega)]
  · have hr : reader.read_little_endian u 1 ⟨[0xfe] ++ (to_le 4 v ++ rest), true⟩
        = (0xfe, ⟨to_le 4 v ++ rest, true⟩) := by
      have := read_little_endian_to_le u 1 0xfe (to_le 4 v ++ rest) (by norm_num)
      simpa [to_le] using this
    simp only [List.nil_append, List.cons_append, List.singleton_append] at hr ⊢
    simp only [reader.read_variable_uint_little_endian, hr]
    simp [read_little_endian_to_le u 4 v rest (by omega)]
  · have hr : reader.read_little_endian u 1 ⟨[0xff] ++ (to_le 8 v ++ rest), true⟩
        = (0xff, ⟨to_le 8 v ++ rest, true⟩) := by
      have := read_little_endian_to_le u 1 0xff (to_le 8 v ++ rest) (by norm_num)
      simpa [to_le] using this
    simp only [List.nil_append, List.cons_append, List.singleton_append] at hr ⊢
    simp only [reader.read_variable_uint_little_endian, hr]
    simp [read_little_endian_to_le u 8 v rest (by omega)]

theorem write_variable_uint_length (v : Nat) :
    (writer.write_variable_uint_little_endian [] v).length = variable_uint_size v := by
  unfold writer.write_variable_uint_little_endian variable_uint_size
  split_ifs <;> simp [to_le_length]

theorem write_variable_uint_sink (sink : writer) (v : Nat) :
    writer.write_variable_uint_little_endian sink v
      = sink ++ writer.write_variable_uint_little_endian [] v := by
  unfold writer.write_variable_uint_little_endian
  split_ifs <;> simp

/-! ## The encoder -/

/-- The fixed part of the encoding, field by field. -/
theorem to_data_writer_eq (h : header) (sink : writer) (f : Bool) :
    h.to_data_writer sink f
      = sink ++ (to_le 4 h.version ++ (h.previous_block_hash ++ (h.merkle ++
          (to_le 4 h.timestamp ++ (to_le 4 h.bits ++ (to_le 4 h.nonce ++
            (if f then writer.write_variable_uint_little_endian [] h.transaction_count
             else []))))))) := by
  cases f
  · simp [header.to_data_writer, writer.write_4_bytes_little_endian, writer.write_hash]
  · simp only [header.to_data_writer, writer.write_4_bytes_little_endian, writer.write_hash,
      if_true]
    rw [write_variable_uint_sink]
    simp

theorem to_data_writer_length (h : header) (hw : h.wf) (f : Bool) :
    (h.to_data_writer [] f).length = h.serialized_size f := by
  obtain ⟨-, ⟨hp, -⟩, ⟨hm, -⟩, -⟩ := hw
  rw [to_data_writer_eq]
  cases f
  · simp [header.serialized_size, to_le_length, hp, hm, hash_size]
  · simp [header.serialized_size, to_le_length, hp, hm, hash_size, write_variable_uint_length]
    omega

theorem to_data_eq_some (h : header) (hw : h.wf) (f : Bool) :
    h.to_data f = some (h.to_data_writer [] f) := by
  simp [header.to_data, to_data_writer_length h hw f]

/-! ## The decoder -/

theorem read_little_endian_append (u : underrun) (a rest : List Nat) :
    reader.read_little_endian u a.length ⟨a ++ rest, true⟩
      = (from_le a % 256 ^ a.length, ⟨rest, true⟩) := by
  simp [reader.read_little_endian, read_bytes_append]

/-- The decoder on a buffer that holds the six fixed fields `a p m t b n`. -/
theorem from_data_fields (u : underrun) (self : header) (a p m t b n rest : List Nat)
    (f : Bool) (ha : a.length = 4) (hp : p.length = 32) (hm : m.length = 32)
    (ht : t.length = 4) (hb : b.length = 4) (hn : n.length = 4) :
    self.from_data u ⟨a ++ (p ++ (m ++ (t ++ (b ++ (n ++ rest))))), true⟩ f
      = (if f then
          ((reader.read_variable_uint_little_endian u ⟨rest, true⟩).2.valid,
           (if (reader.read_variable_uint_little_endian u ⟨rest, true⟩).2.valid then
              (⟨from_le a % 256 ^ 4, p, m, from_le t % 256 ^ 4, from_le b % 256 ^ 4,
                from_le n % 256 ^ 4,
                (reader.read_variable_uint_little_endian u ⟨rest, true⟩).1⟩ : header)
            else
              ⟨0, null_hash, null_hash, 0, 0, 0,
                (reader.read_variable_uint_little_endian u ⟨rest, true⟩).1⟩),
           (reader.read_variable_uint_little_endian u ⟨rest, true⟩).2)
         else
          (true,
           ⟨from_le a % 256 ^ 4, p, m, from_le t % 256 ^ 4, from_le b % 256 ^ 4,
             from_le n % 256 ^ 4, 0⟩,
           ⟨rest, true⟩)) := by
  have e1 := read_little_endian_append u a (p ++ (m ++ (t ++ (b ++ (n ++ rest)))))
  have e2 := read_bytes_append u p (m ++ (t ++ (b ++ (n ++ rest))))
  have e3 := read_bytes_append u m (t ++ (b ++ (n ++ rest)))
  have e4 := read_little_endian_append u t (b ++ (n ++ rest))
  have e5 := read_little_endian_append u b (n ++ rest)
  have e6 := read_little_endian_append u n rest
  rw [ha] at e1; rw [hp] at e2; rw [hm] at e3; rw [ht] at e4; rw [hb] at e5; rw [hn] at e6
  cases f
  · simp [header.from_data, reader.read_4_bytes_little_endian, reader.read_hash, hash_size,
      e1, e2, e3, e4, e5, e6, header.reset]
  · simp only [header.from_data, reader.read_4_bytes_little_endian, reader.read_hash, hash_size,
      e1, e2, e3, e4, e5, e6, header.reset, if_true]
    cases hv : (reader.read_variable_uint_little_endian u ⟨rest, true⟩).2.valid <;>
      simp [null_hash, hash_size]

/-- A buffer of at least 80 bytes splits into the six fixed fields and a remainder. -/
theorem split_fields (data : List Nat) :
    data = (data.take 4) ++ (((data.drop 4).take 32) ++ (((data.drop 36).take 32) ++
      (((data.drop 68).take 4) ++ (((data.drop 72).take 4) ++ (((data.drop 76).take 4) ++
        data.drop 80))))) := by
  have e1 : data = data.take 4 ++ data.drop 4 := (List.take_append_drop 4 data).symm
  have e2 : data.drop 4 = (data.drop 4).take 32 ++ data.drop 36 := by
    have h := List.take_append_drop 32 (data.drop 4)
    rw [List.drop_drop] at h
    exact h.symm
  have e3 : data.drop 36 = (data.drop 36).take 32 ++ data.drop 68 := by
    have h := List.take_append_drop 32 (data.drop 36)
    rw [List.drop_drop] at h
    exact h.symm
  have e4 : data.drop 68 = (data.drop 68).take 4 ++ data.drop 72 := by
    have h := List.take_append_drop 4 (data.drop 68)
    rw [List.drop_drop] at h
    exact h.symm
  have e5 : data.drop 72 = (data.drop 72).take 4 ++ data.drop 76 := by
    have h := List.take_append_drop 4 (data.drop 72)
    rw [List.drop_drop] at h
    exact h.symm
  have e6 : data.drop 76 = (data.drop 76).take 4 ++ data.drop 80 := by
    have h := List.take_append_drop 4 (data.drop 76)
    rw [List.drop_drop] at h
    exact h.symm
  rw [← e6, ← e5, ← e4, ← e3, ← e2, ← e1]

theorem read_bytes_valid (u : underrun) (n : Nat) (r : reader)
    (h : (r.read_bytes u n).2.valid = true) :
    r.valid = true ∧ n ≤ r.bytes.length ∧ (r.read_bytes u n).2.bytes = r.bytes.drop n := by
  unfold reader.read_bytes at h ⊢
  split_ifs at h ⊢ with hc
  exact ⟨hc.1, hc.2, rfl⟩

theorem read_little_endian_valid (u : underrun) (n : Nat) (r : reader)
    (h : (r.read_little_endian u n).2.valid = true) :
    r.valid = true ∧ n ≤ r.bytes.length ∧ (r.read_little_endian u n).2.bytes = r.bytes.drop n :=
  read_bytes_valid u n r h

/-- The six fixed-width reads leave a valid cursor only on a buffer of 80 bytes. -/
theorem after_fixed_valid (u : underrun) (data : List Nat)
    (h : (reader.after_fixed u ⟨data, true⟩).valid = true) : 80 ≤ data.length := by
  unfold reader.after_fixed reader.read_4_bytes_little_endian reader.read_hash at h
  simp only [hash_size] at h
  obtain ⟨v6, l6, b6⟩ := read_little_endian_valid u 4 _ h
  obtain ⟨v5, l5, b5⟩ := read_little_endian_valid u 4 _ v6
  obtain ⟨v4, l4, b4⟩ := read_little_endian_valid u 4 _ v5
  obtain ⟨v3, l3, b3⟩ := read_bytes_valid u 32 _ v4
  obtain ⟨v2, l2, b2⟩ := read_bytes_valid u 32 _ v3
  obtain ⟨-, l1, b1⟩ := read_little_endian_valid u 4 _ v2
  rw [b5] at l6
  rw [b4] at l5 l6
  rw [b3] at l4 l5 l6
  rw [b2] at l3 l4 l5 l6
  rw [b1] at l2 l3 l4 l5 l6
  simp only [List.length_drop] at l1 l2 l3 l4 l5 l6
  omega

theorem from_data_result (u : underrun) (self : header) (source : reader) (f : Bool) :
    (self.from_data u source f).1
      = (if f then ((source.after_fixed u).read_variable_uint_little_endian u).2.valid
         else (source.after_fixed u).valid) := by
  cases f <;> rfl

theorem read_variable_uint_valid (u : underrun) (r : reader)
    (h : (r.read_variable_uint_little_endian u).2.valid = true) : r.valid = true := by
  cases r with
  | mk bs v =>
    cases v
    · rw [read_variable_uint_invalid] at h; exact h
    · rfl

/-- A decode that reports success was given at least 80 bytes. -/
theorem from_data_true_length (u : underrun) (self : header) (data : List Nat) (f : Bool)
    (h : (self.from_data_chunk u data f).1 = true) : 80 ≤ data.length := by
  unfold header.from_data_chunk at h
  rw [from_data_result] at h
  cases f
  · exact after_fixed_valid u data h
  · exact after_fixed_valid u data (read_variable_uint_valid u _ h)

theorem to_le_four (v : Nat) : to_le 4 v = le32 v := by
  simp [to_le, le32, Nat.div_div_eq_div_mul]

/-- The slices of a buffer assembled from the six fixed fields and a remainder. -/
theorem fields_slices (a p m t b n rest : List Nat)
    (ha : a.length = 4) (hp : p.length = 32) (hm : m.length = 32)
    (ht : t.length = 4) (hb : b.length = 4) (hn : n.length = 4) :
    slice (a ++ (p ++ (m ++ (t ++ (b ++ (n ++ rest)))))) 0 4 = a ∧
    slice (a ++ (p ++ (m ++ (t ++ (b ++ (n ++ rest)))))) 4 32 = p ∧
    slice (a ++ (p ++ (m ++ (t ++ (b ++ (n ++ rest)))))) 36 32 = m ∧
    slice (a ++ (p ++ (m ++ (t ++ (b ++ (n ++ rest)))))) 68 4 = t ∧
    slice (a ++ (p ++ (m ++ (t ++ (b ++ (n ++ rest)))))) 72 4 = b ∧
    slice (a ++ (p ++ (m ++ (t ++ (b ++ (n ++ rest)))))) 76 4 = n ∧
    (a ++ (p ++ (m ++ (t ++ (b ++ (n ++ rest)))))).drop 80 = rest := by
  have d4 : (a ++ (p ++ (m ++ (t ++ (b ++ (n ++ rest)))))).drop 4
      = p ++ (m ++ (t ++ (b ++ (n ++ rest)))) := List.drop_left' ha
  have d36 : (a ++ (p ++ (m ++ (t ++ (b ++ (n ++ rest)))))).drop 36
      = m ++ (t ++ (b ++ (n ++ rest))) := by
    rw [show 36 = 4 + 32 from rfl, ← List.drop_drop, d4]; exact List.drop_left' hp
  have d68 : (a ++ (p ++ (m ++ (t ++ (b ++ (n ++ rest)))))).drop 68
      = t ++ (b ++ (n ++ rest)) := by
    rw [show 68 = 36 + 32 from rfl, ← List.drop_drop, d36]; exact List.drop_left' hm
  have d72 : (a ++ (p ++ (m ++ (t ++ (b ++ (n ++ rest)))))).drop 72
      = b ++ (n ++ rest) := by
    rw [show 72 = 68 + 4 from rfl, ← List.drop_drop, d68]; exact List.drop_left' ht
  have d76 : (a ++ (p ++ (m ++ (t ++ (b ++ (n ++ rest)))))).drop 76
      = n ++ rest := by
    rw [show 76 = 72 + 4 from rfl, ← List.drop_drop, d72]; exact List.drop_left' hb
  have d80 : (a ++ (p ++ (m ++ (t ++ (b ++ (n ++ rest)))))).drop 80 = rest := by
    rw [show 80 = 76 + 4 from rfl, ← List.drop_drop, d76]; exact List.drop_left' hn
  refine ⟨?_, ?_, ?_, ?_, ?_, ?_, d80⟩
  · simp only [slice, List.drop_zero]; exact List.take_left' ha
  · simp only [slice, d4]; exact List.take_left' hp
  · simp only [slice, d36]; exact List.take_left' hm
  · simp only [slice, d68]; exact List.take_left' ht
  · simp only [slice, d72]; exact List.take_left' hb
  · simp only [slice, d76]; exact List.take_left' hn

/-- Decoding what the writer form produced, followed by any remainder. -/
theorem from_data_to_data_writer (u : underrun) (target r : header) (f : Bool)
    (rest : List Nat) (hw : r.wf) :
    target.from_data u ⟨r.to_data_writer [] f ++ rest, true⟩ f
      = (true, (if f then r else { r with transaction_count := 0 }), ⟨rest, true⟩) := by
  obtain ⟨hv, ⟨hp, -⟩, ⟨hm, -⟩, ht, hb, hn, hc⟩ := hw
  rw [to_data_writer_eq]
  simp only [List.nil_append, List.append_assoc]
  rw [from_data_fields u target _ _ _ _ _ _ _ f (to_le_length 4 _) hp hm (to_le_length 4 _)
    (to_le_length 4 _) (to_le_length 4 _)]
  have e1 : r.version % 256 ^ 4 = r.version := Nat.mod_eq_of_lt (by omega)
  have e2 : r.timestamp % 256 ^ 4 = r.timestamp := Nat.mod_eq_of_lt (by omega)
  have e3 : r.bits % 256 ^ 4 = r.bits := Nat.mod_eq_of_lt (by omega)
  have e4 : r.nonce % 256 ^ 4 = r.nonce := Nat.mod_eq_of_lt (by omega)
  cases f
  · simp only [from_le_to_le, Nat.mod_mod, e1, e2, e3, e4]
    simp
  · simp only [if_true, read_variable_uint_write u _ rest hc]
    simp only [from_le_to_le, Nat.mod_mod, e1, e2, e3, e4]

/-- The decoder on any buffer of at least 80 bytes, in terms of its slices. -/
theorem from_data_chunk_long (u : underrun) (self : header) (data : List Nat) (f : Bool)
    (h : 80 ≤ data.length) :
    self.from_data_chunk u data f
      = (if f then
          ((reader.read_variable_uint_little_endian u ⟨data.drop 80, true⟩).2.valid,
           (if (reader.read_variable_uint_little_endian u ⟨data.drop 80, true⟩).2.valid then
              (⟨from_le (slice data 0 4) % 256 ^ 4, slice data 4 32, slice data 36 32,
                from_le (slice data 68 4) % 256 ^ 4, from_le (slice data 72 4) % 256 ^ 4,
                from_le (slice data 76 4) % 256 ^ 4,
                (reader.read_variable_uint_little_endian u ⟨data.drop 80, true⟩).1⟩ : header)
            else
              ⟨0, null_hash, null_hash, 0, 0, 0,
                (reader.read_variable_uint_little_endian u ⟨data.drop 80, true⟩).1⟩),
           (reader.read_variable_uint_little_endian u ⟨data.drop 80, true⟩).2)
         else
          (true,
           ⟨from_le (slice data 0 4) % 256 ^ 4, slice data 4 32, slice data 36 32,
             from_le (slice data 68 4) % 256 ^ 4, from_le (slice data 72 4) % 256 ^ 4,
             from_le (slice data 76 4) % 256 ^ 4, 0⟩,
           ⟨data.drop 80, true⟩)) := by
  have hs := from_data_fields u self (data.take 4) ((data.drop 4).take 32)
    ((data.drop 36).take 32) ((data.drop 68).take 4) ((data.drop 72).take 4)
    ((data.drop 76).take 4) (data.drop 80) f
    (by simp only [List.length_take, List.length_drop]; omega)
    (by simp only [List.length_take, List.length_drop]; omega)
    (by simp only [List.length_take, List.length_drop]; omega)
    (by simp only [List.length_take, List.length_drop]; omega)
    (by simp only [List.length_take, List.length_drop]; omega)
    (by simp only [List.length_take, List.length_drop]; omega)
  rw [← split_fields] at hs
  simpa only [header.from_data_chunk, slice, List.drop_zero] using hs

theorem from_le_slice (data : List Nat) (off : Nat) (h : off + 4 ≤ data.length) :
    from_le (slice data off 4) = le32_at data off := by
  have hl : 4 ≤ (data.drop off).length := by rw [List.length_drop]; omega
  have g : ∀ k, data.getD (off + k) 0 = (data.drop off).getD k 0 := by
    intro k
    simp [List.getD_eq_getElem?_getD, List.getElem?_drop]
  simp only [le32_at, slice]
  rw [show data.getD off 0 = data.getD (off + 0) 0 from rfl, g 0, g 1, g 2, g 3]
  generalize data.drop off = l at hl
  match l, hl with
  | x0 :: x1 :: x2 :: x3 :: tl, _ =>
    simp only [List.take, from_le, List.getD_cons_zero, List.getD_cons_succ]
    ring

theorem from_le_slice_lt (data : List Nat) (off : Nat) (hb : bytes_ok data) :
    from_le (slice data off 4) < 256 ^ 4 := by
  have h1 := from_le_lt (slice data off 4) (bytes_ok_take (bytes_ok_drop hb off) 4)
  have h2 : (slice data off 4).length ≤ 4 := by
    simp only [slice, List.length_take]; omega
  exact lt_of_lt_of_le h1 (Nat.pow_le_pow_right (by norm_num) h2)

theorem read_little_endian_valid_eq (u : underrun) (n : Nat) (bs : List Nat) :
    (reader.read_little_endian u n ⟨bs, true⟩).2.valid = decide (n ≤ bs.length) := by
  by_cases h : n ≤ bs.length
  · simp [read_little_endian_enough u n bs h, h]
  · simp [read_little_endian_short u n bs (by omega), h]

/-- On a valid cursor over bytes, the compact-integer read succeeds exactly when the
unread bytes start with a complete compact integer. -/
theorem read_variable_uint_valid_eq (u : underrun) (rest : List Nat) (hb : bytes_ok rest) :
    (reader.read_variable_uint_little_endian u ⟨rest, true⟩).2.valid
      = compact_complete rest := by
  cases rest with
  | nil =>
    simp only [reader.read_variable_uint_little_endian, compact_complete,
      read_little_endian_short u 1 [] (by simp), read_little_endian_invalid]
    split_ifs <;> rfl
  | cons lead t =>
    have hl : lead < 256 := hb lead (List.mem_cons_self _ _)
    have e : reader.read_little_endian u 1 ⟨lead :: t, true⟩ = (lead, ⟨t, true⟩) := by
      rw [read_little_endian_enough u 1 (lead :: t) (by simp)]
      simp [from_le, Nat.mod_eq_of_lt hl]
    simp only [reader.read_variable_uint_little_endian, e, compact_complete, compact_width,
      List.length_cons]
    split_ifs <;> simp [read_little_endian_valid_eq]

/-- The record a failed decode leaves behind. -/
theorem from_data_false_record (u : underrun) (self : header) (source : reader) (f : Bool)
    (h : (self.from_data u source f).1 = false) :
    (self.from_data u source f).2.1
      = ⟨0, null_hash, null_hash, 0, 0, 0,
          if f then ((source.after_fixed u).read_variable_uint_little_endian u).1 else 0⟩ := by
  rw [from_data_result] at h
  cases f
  · simp only [Bool.false_eq_true, if_false] at h
    simp only [reader.after_fixed] at h
    simp [header.from_data, h, header.reset, null_hash]
  · simp only [if_true] at h
    simp only [reader.after_fixed] at h
    simp [header.from_data, h, header.reset, null_hash, reader.after_fixed]

theorem from_le_replicate_zero (n : Nat) : from_le (List.replicate n 0) = 0 := by
  induction n with
  | zero => rfl
  | succ n ih => simp [List.replicate_succ, from_le, ih]

theorem read_little_endian_zero_fill (n : Nat) (r : reader)
    (h : (r.read_little_endian zero_fill n).2.valid = false) :
    (r.read_little_endian zero_fill n).1 = 0 := by
  unfold reader.read_little_endian reader.read_bytes at h ⊢
  split_ifs at h ⊢ with hc hd <;> simp [zero_fill, from_le_replicate_zero]

theorem read_variable_uint_zero_fill (r : reader)
    (h : (r.read_variable_uint_little_endian zero_fill).2.valid = false) :
    (r.read_variable_uint_little_endian zero_fill).1 = 0 := by
  unfold reader.read_variable_uint_little_endian at h ⊢
  simp only at h ⊢
  split_ifs at h ⊢ <;> exact read_little_endian_zero_fill _ _ h

/-- A buffer that is too short makes the decoder report failure. -/
theorem from_data_chunk_too_short (u : underrun) (self : header) (data : List Nat)
    (f : Bool) (hb : bytes_ok data) (hs : too_short data f) :
    (self.from_data_chunk u data f).1 = false := by
  by_cases hl : 80 ≤ data.length
  · rcases hs with hs | ⟨hf, hc⟩
    · omega
    · subst hf
      rw [from_data_chunk_long u self data true hl]
      simp only [if_true]
      rw [read_variable_uint_valid_eq u _ (bytes_ok_drop hb 80)]
      exact hc
  · cases hr : (self.from_data_chunk u data f).1
    · rfl
    · exact absurd (from_data_true_length u self data f hr) hl

/-! ## The comparison operators -/

theorem header_eq_iff (a b : header) : a.eq b = true ↔ a = b := by
  cases a; cases b
  simp only [header.eq, Bool.and_eq_true, beq_iff_eq, header.mk.injEq]
  tauto

theorem all_zero_iff (h : List Nat) (hl : h.length = hash_size) :
    h = null_hash ↔ all_zero h := by
  unfold null_hash all_zero
  rw [List.eq_replicate_iff]
  constructor
  · intro hh; exact hh.2
  · intro hh; exact ⟨hl, hh⟩

theorem is_valid_false_iff (h : header) :
    h.is_valid = false ↔ (h.version = 0 ∧ h.previous_block_hash = null_hash ∧
      h.merkle = null_hash ∧ h.timestamp = 0 ∧ h.bits = 0 ∧ h.nonce = 0) := by
  simp only [header.is_valid, Bool.or_eq_false_iff, bne_eq_false_iff_eq]
  tauto

/-! ## Properties of the codec -/

/-- C1, counterexample: the genesis header with `transaction_count = 1` is populated,
encodes with the flag off to 80 bytes that decode successfully with the flag off, and the
decoded record is not `==` to the original (its `transaction_count` is 0). -/
theorem C1_round_trip_fails_flag_off :
    genesis.wf ∧ genesis.is_valid = true ∧
    genesis.to_data false = some (genesis.to_data_writer [] false) ∧
    (null_header.from_data_chunk zero_fill (genesis.to_data_writer [] false) false).1 = true ∧
    ((null_header.from_data_chunk zero_fill (genesis.to_data_writer [] false) false).2.1).eq
      genesis = false := by
  decide

/-- C1, amended (round trip): for every record `r` (populated or not), either flag value
`f` and any target record, `to_data(f)` yields a buffer on which `from_data(·, f)` returns
true; with the flag on the target then equals `r` in all seven fields, with the flag off
it equals `r` with `transaction_count` replaced by 0, so it is `==` to `r` exactly when
the flag is on or `r.transaction_count` is 0. -/
theorem C1_round_trip (u : underrun) (target r : header) (f : Bool) (hw : r.wf) :
    ∃ data, r.to_data f = some data ∧
      (target.from_data_chunk u data f).1 = true ∧
      (target.from_data_chunk u data f).2.1
        = (if f then r else { r with transaction_count := 0 }) ∧
      (((target.from_data_chunk u data f).2.1).eq r = true
        ↔ (f = true ∨ r.transaction_count = 0)) := by
  refine ⟨r.to_data_writer [] f, to_data_eq_some r hw f, ?_⟩
  have h := from_data_to_data_writer u target r f [] hw
  rw [List.append_nil] at h
  unfold header.from_data_chunk
  rw [h]
  refine ⟨rfl, rfl, ?_⟩
  rw [header_eq_iff]
  cases f
  · cases r
    simp only [Bool.false_eq_true, if_false, header.mk.injEq, true_and, false_or]
    exact eq_comm
  · simp

theorem C1_round_trip_witness :
    genesis.wf ∧ ∃ data, genesis.to_data true = some data ∧
      (null_header.from_data_chunk short_fill data true).1 = true ∧
      (null_header.from_data_chunk short_fill data true).2.1
        = (if true then genesis else { genesis with transaction_count := 0 }) ∧
      (((null_header.from_data_chunk short_fill data true).2.1).eq genesis = true
        ↔ (true = true ∨ genesis.transaction_count = 0)) :=
  ⟨by decide, C1_round_trip short_fill null_header genesis true (by decide)⟩

/-- C3 (size agreement): for every record and either flag value, the bytes the writer
form puts into the empty buffer number exactly `serialized_size(f)`, so the assertion
of the buffer-producing `to_data` holds and it returns that buffer. -/
theorem C3_size_agreement (r : header) (f : Bool) (hw : r.wf) :
    (r.to_data_writer [] f).length = r.serialized_size f ∧
    r.to_data f = some (r.to_data_writer [] f) ∧
    ∀ data, r.to_data f = some data → data.length = r.serialized_size f := by
  refine ⟨to_data_writer_length r hw f, to_data_eq_some r hw f, ?_⟩
  intro data hd
  rw [to_data_eq_some r hw f] at hd
  cases hd
  exact to_data_writer_length r hw f

theorem C3_size_agreement_witness :
    genesis.wf ∧ ((genesis.to_data_writer [] true).length = genesis.serialized_size true ∧
    genesis.to_data true = some (genesis.to_data_writer [] true) ∧
    ∀ data, genesis.to_data true = some data → data.length = genesis.serialized_size true) :=
  ⟨by decide, C3_size_agreement genesis true (by decide)⟩

/-- C4 (encode wire layout): for every record, `to_data(false)` is exactly 80 bytes:
bytes 0..3 are `version` little-endian, bytes 4..35 `previous_block_hash` verbatim,
bytes 36..67 `merkle` verbatim, bytes 68..71 `timestamp`, 72..75 `bits` and 76..79
`nonce`, each little-endian. -/
theorem C4_encode_layout (r : header) (hw : r.wf) :
    ∃ data, r.to_data false = some data ∧ data.length = 80 ∧
      slice data 0 4 = le32 r.version ∧
      slice data 4 32 = r.previous_block_hash ∧
      slice data 36 32 = r.merkle ∧
      slice data 68 4 = le32 r.timestamp ∧
      slice data 72 4 = le32 r.bits ∧
      slice data 76 4 = le32 r.nonce := by
  refine ⟨r.to_data_writer [] false, to_data_eq_some r hw false, ?_, ?_⟩
  · rw [to_data_writer_length r hw false]; rfl
  · obtain ⟨-, ⟨hp, -⟩, ⟨hm, -⟩, -⟩ := hw
    have h := fields_slices (to_le 4 r.version) r.previous_block_hash r.merkle
      (to_le 4 r.timestamp) (to_le 4 r.bits) (to_le 4 r.nonce) []
      (to_le_length 4 _) hp hm (to_le_length 4 _) (to_le_length 4 _) (to_le_length 4 _)
    rw [to_data_writer_eq]
    simp only [Bool.false_eq_true, if_false, List.nil_append]
    simp only [to_le_four] at h ⊢
    exact ⟨h.1, h.2.1, h.2.2.1, h.2.2.2.1, h.2.2.2.2.1, h.2.2.2.2.2.1⟩

theorem C4_encode_layout_witness :
    genesis.wf ∧ ∃ data, genesis.to_data false = some data ∧ data.length = 80 ∧
      slice data 0 4 = le32 genesis.version ∧
      slice data 4 32 = genesis.previous_block_hash ∧
      slice data 36 32 = genesis.merkle ∧
      slice data 68 4 = le32 genesis.timestamp ∧
      slice data 72 4 = le32 genesis.bits ∧
      slice data 76 4 = le32 genesis.nonce :=
  ⟨by decide, C4_encode_layout genesis (by decide)⟩

/-- C5 (decode wire layout): for every byte buffer on which `from_data` returns true,
`version`, `timestamp`, `bits` and `nonce` are the little-endian unsigned 32-bit values
of bytes 0..3, 68..71, 72..75 and 76..79, and `previous_block_hash` and `merkle` are
bytes 4..35 and 36..67 verbatim. -/
theorem C5_decode_layout (u : underrun) (self : header) (data : List Nat) (f : Bool)
    (hb : bytes_ok data) (h : (self.from_data_chunk u data f).1 = true) :
    (self.from_data_chunk u data f).2.1.version = le32_at data 0 ∧
    (self.from_data_chunk u data f).2.1.timestamp = le32_at data 68 ∧
    (self.from_data_chunk u data f).2.1.bits = le32_at data 72 ∧
    (self.from_data_chunk u data f).2.1.nonce = le32_at data 76 ∧
    (self.from_data_chunk u data f).2.1.previous_block_hash = slice data 4 32 ∧
    (self.from_data_chunk u data f).2.1.merkle = slice data 36 32 := by
  have hl := from_data_true_length u self data f h
  have e0 : from_le (slice data 0 4) % 256 ^ 4 = le32_at data 0 := by
    rw [Nat.mod_eq_of_lt (from_le_slice_lt data 0 hb), from_le_slice data 0 (by omega)]
  have e68 : from_le (slice data 68 4) % 256 ^ 4 = le32_at data 68 := by
    rw [Nat.mod_eq_of_lt (from_le_slice_lt data 68 hb), from_le_slice data 68 (by omega)]
  have e72 : from_le (slice data 72 4) % 256 ^ 4 = le32_at data 72 := by
    rw [Nat.mod_eq_of_lt (from_le_slice_lt data 72 hb), from_le_slice data 72 (by omega)]
  have e76 : from_le (slice data 76 4) % 256 ^ 4 = le32_at data 76 := by
    rw [Nat.mod_eq_of_lt (from_le_slice_lt data 76 hb), from_le_slice data 76 (by omega)]
  rw [from_data_chunk_long u self data f hl] at h ⊢
  have p4 : (256 : Nat) ^ 4 = 4294967296 := by norm_num
  rw [p4] at e0 e68 e72 e76
  cases f
  · simp [e0, e68, e72, e76]
  · simp only [if_true] at h
    simp [h, e0, e68, e72, e76]

theorem C5_decode_layout_witness :
    bytes_ok (genesis.to_data_writer [] true) ∧
    (null_header.from_data_chunk zero_fill (genesis.to_data_writer [] true) true).1 = true ∧
    ((null_header.from_data_chunk zero_fill (genesis.to_data_writer [] true) true).2.1.version
        = le32_at (genesis.to_data_writer [] true) 0 ∧
      (null_header.from_data_chunk zero_fill (genesis.to_data_writer [] true) true).2.1.timestamp
        = le32_at (genesis.to_data_writer [] true) 68 ∧
      (null_header.from_data_chunk zero_fill (genesis.to_data_writer [] true) true).2.1.bits
        = le32_at (genesis.to_data_writer [] true) 72 ∧
      (null_header.from_data_chunk zero_fill (genesis.to_data_writer [] true) true).2.1.nonce
        = le32_at (genesis.to_data_writer [] true) 76 ∧
      (null_header.from_data_chunk zero_fill (genesis.to_data_writer [] true)
          true).2.1.previous_block_hash
        = slice (genesis.to_data_writer [] true) 4 32 ∧
      (null_header.from_data_chunk zero_fill (genesis.to_data_writer [] true) true).2.1.merkle
        = slice (genesis.to_data_writer [] true) 36 32) :=
  ⟨by decide, by decide,
    C5_decode_layout zero_fill null_header (genesis.to_data_writer [] true) true
      (by decide) (by decide)⟩

/-- C6 (decode fails exactly on underrun): with the flag off `from_data` on a byte
buffer returns true iff the buffer holds at least 80 bytes; with the flag on it returns
true iff the buffer holds 80 bytes followed by a complete compact integer (1, 3, 5 or 9
bytes as selected by its leading byte).  The decoder is a total function whose only
report of failure is the boolean. -/
theorem C6_decode_fails_exactly_on_underrun (u : underrun) (self : header)
    (data : List Nat) (hb : bytes_ok data) :
    ((self.from_data_chunk u data false).1 = true ↔ 80 ≤ data.length) ∧
    ((self.from_data_chunk u data true).1 = true
      ↔ 80 ≤ data.length ∧ compact_complete (data.drop 80) = true) := by
  constructor
  · constructor
    · exact from_data_true_length u self data false
    · intro hl
      rw [from_data_chunk_long u self data false hl]
      rfl
  · constructor
    · intro h
      have hl := from_data_true_length u self data true h
      refine ⟨hl, ?_⟩
      rw [from_data_chunk_long u self data true hl] at h
      simp only [if_true] at h
      rw [read_variable_uint_valid_eq u _ (bytes_ok_drop hb 80)] at h
      exact h
    · rintro ⟨hl, hc⟩
      rw [from_data_chunk_long u self data true hl]
      simp only [if_true]
      rw [read_variable_uint_valid_eq u _ (bytes_ok_drop hb 80)]
      exact hc

theorem C6_decode_fails_exactly_on_underrun_witness :
    bytes_ok (genesis.to_data_writer [] true) ∧
    (((null_header.from_data_chunk zero_fill (genesis.to_data_writer [] true) false).1 = true
        ↔ 80 ≤ (genesis.to_data_writer [] true).length) ∧
      ((null_header.from_data_chunk zero_fill (genesis.to_data_writer [] true) true).1 = true
        ↔ 80 ≤ (genesis.to_data_writer [] true).length ∧
          compact_complete ((genesis.to_data_writer [] true).drop 80) = true)) :=
  ⟨by decide,
    C6_decode_fails_exactly_on_underrun zero_fill null_header (genesis.to_data_writer [] true)
      (by decide)⟩

/-- What a decode of a too-short buffer leaves behind: `false`, six zero fixed fields (so
`is_valid()` is false), and in `transaction_count` 0 with the flag off and, with the
flag on, the value the compact-integer read returned; the record is the null record
with the flag off, and for a cursor whose failed reads deliver zero bytes. -/
theorem too_short_decode_record (u : underrun) (self : header) (data : List Nat) (f : Bool)
    (hb : bytes_ok data) (hs : too_short data f) :
    (self.from_data_chunk u data f).1 = false ∧
    (self.from_data_chunk u data f).2.1.version = 0 ∧
    (self.from_data_chunk u data f).2.1.previous_block_hash = null_hash ∧
    (self.from_data_chunk u data f).2.1.merkle = null_hash ∧
    (self.from_data_chunk u data f).2.1.timestamp = 0 ∧
    (self.from_data_chunk u data f).2.1.bits = 0 ∧
    (self.from_data_chunk u data f).2.1.nonce = 0 ∧
    (self.from_data_chunk u data f).2.1.is_valid = false ∧
    (self.from_data_chunk u data f).2.1.transaction_count
      = (if f then
          ((reader.after_fixed u ⟨data, true⟩).read_variable_uint_little_endian u).1
         else 0) ∧
    (f = false → (self.from_data_chunk u data f).2.1 = null_header) ∧
    (self.from_data_chunk zero_fill data f).2.1 = null_header := by
  have hr := from_data_chunk_too_short u self data f hb hs
  have hz := from_data_chunk_too_short zero_fill self data f hb hs
  have e := from_data_false_record u self ⟨data, true⟩ f hr
  have ez := from_data_false_record zero_fill self ⟨data, true⟩ f hz
  unfold header.from_data_chunk at hr hz ⊢
  refine ⟨hr, ?_, ?_, ?_, ?_, ?_, ?_, ?_, ?_, ?_, ?_⟩
  · rw [e]
  · rw [e]
  · rw [e]
  · rw [e]
  · rw [e]
  · rw [e]
  · rw [e]; rfl
  · rw [e]
  · intro hf
    subst hf
    rw [e]; rfl
  · rw [ez]
    cases f
    · rfl
    · rw [from_data_result] at hz
      simp only [if_true] at hz ⊢
      rw [read_variable_uint_zero_fill _ hz]
      rfl

/-- C2 (null on failure), the code at the failing input: 80 zero bytes followed by `FD 2C`
is a byte buffer too short for a decode with the flag on (the compact integer announces
two value bytes, one is there).  For every cursor behaviour `u` and every starting
record, `from_data` returns false and resets the six fixed fields, but
`transaction_count` is left holding the value line 103 stored from the failed
`read_variable_uint_little_endian`, namely what the cursor made of the one byte `2C` it
could read: line 107 calls `reset()`, which does not assign `transaction_count`.  So the
record is the null record only if that value is zero; with a cursor that delivers the
byte it read it is 44 and the record is not the null record. -/
theorem C2_failed_decode_keeps_read_value (u : underrun) (self : header) :
    bytes_ok (List.replicate 80 0 ++ [0xfd, 0x2c]) ∧
    too_short (List.replicate 80 0 ++ [0xfd, 0x2c]) true ∧
    self.from_data_chunk u (List.replicate 80 0 ++ [0xfd, 0x2c]) true
      = (false, ⟨0, null_hash, null_hash, 0, 0, 0, from_le (u 2 [0x2c]) % 256 ^ 2⟩,
          ⟨[0x2c], false⟩) ∧
    ((self.from_data_chunk u (List.replicate 80 0 ++ [0xfd, 0x2c]) true).2.1 = null_header
      ↔ from_le (u 2 [0x2c]) % 256 ^ 2 = 0) ∧
    (self.from_data_chunk short_fill
      (List.replicate 80 0 ++ [0xfd, 0x2c]) true).2.1.transaction_count = 44 ∧
    (self.from_data_chunk short_fill (List.replicate 80 0 ++ [0xfd, 0x2c]) true).2.1
      ≠ null_header := by
  have hh : (List.replicate 80 0).length = 80 := by simp
  have hl : 80 ≤ (List.replicate 80 0 ++ [0xfd, 0x2c]).length := by decide
  have hd : (List.replicate 80 0 ++ [0xfd, 0x2c]).drop 80 = [0xfd, 0x2c] :=
    List.drop_left' hh
  have hr : ∀ v : underrun, reader.read_variable_uint_little_endian v ⟨[0xfd, 0x2c], true⟩
      = (from_le (v 2 [0x2c]) % 256 ^ 2, ⟨[0x2c], false⟩) := by
    intro v
    simp [reader.read_variable_uint_little_endian, reader.read_little_endian,
      reader.read_bytes, from_le]
  have e : ∀ v : underrun,
      self.from_data_chunk v (List.replicate 80 0 ++ [0xfd, 0x2c]) true
        = (false, ⟨0, null_hash, null_hash, 0, 0, 0, from_le (v 2 [0x2c]) % 256 ^ 2⟩,
            ⟨[0x2c], false⟩) := by
    intro v
    rw [from_data_chunk_long v self _ true hl, hd, hr v]
    rfl
  have h44 : from_le (short_fill 2 [0x2c]) % 256 ^ 2 = 44 := by decide
  refine ⟨by decide, by decide, e u, ?_, ?_, ?_⟩
  · rw [e u]
    simp [null_header]
  · rw [e short_fill]
    exact h44
  · rw [e short_fill, h44]
    decide

/-- C7, counterexample: `reset()` on the genesis header carrying `transaction_count = 1`
leaves `transaction_count` at 1, and the record is not `==` to the null record. -/
theorem C7_reset_keeps_transaction_count :
    genesis.wf ∧ genesis.reset.transaction_count = 1 ∧
    genesis.reset.eq null_header = false := by
  decide

/-- C7, amended: for every record, after `reset()` the `version`, `timestamp`, `bits` and
`nonce` are 0 and both digests are all-zero, so `is_valid()` is false; `transaction_count`
keeps the value it had, so the record is `==` to the null record exactly when its
`transaction_count` was already 0. -/
theorem C7_reset (h : header) :
    h.reset.version = 0 ∧ h.reset.timestamp = 0 ∧ h.reset.bits = 0 ∧ h.reset.nonce = 0 ∧
    h.reset.previous_block_hash = null_hash ∧ all_zero h.reset.previous_block_hash ∧
    h.reset.merkle = null_hash ∧ all_zero h.reset.merkle ∧
    h.reset.is_valid = false ∧
    h.reset.transaction_count = h.transaction_count ∧
    (h.reset.eq null_header = true ↔ h.transaction_count = 0) := by
  have hz : all_zero (List.replicate hash_size 0) := fun b hb => (List.mem_replicate.mp hb).2
  refine ⟨rfl, rfl, rfl, rfl, rfl, hz, rfl, hz, rfl, rfl, ?_⟩
  rw [header_eq_iff]
  simp [header.reset, null_header, null_hash]

/-- C8 (validity): for every record, `is_valid()` is false iff `version`, `timestamp`,
`bits` and `nonce` are all 0 and `previous_block_hash` and `merkle` are both all-zero;
replacing `transaction_count` by any value `c` does not change the result. -/
theorem C8_is_valid (h : header) (c : Nat) (hw : h.wf) :
    (h.is_valid = false ↔
      (h.version = 0 ∧ h.timestamp = 0 ∧ h.bits = 0 ∧ h.nonce = 0 ∧
        all_zero h.previous_block_hash ∧ all_zero h.merkle)) ∧
    ({ h with transaction_count := c } : header).is_valid = h.is_valid := by
  obtain ⟨-, ⟨hp, -⟩, ⟨hm, -⟩, -⟩ := hw
  refine ⟨?_, rfl⟩
  rw [is_valid_false_iff, all_zero_iff _ hp, all_zero_iff _ hm]
  tauto

theorem C8_is_valid_witness :
    genesis.wf ∧
    ((genesis.is_valid = false ↔
      (genesis.version = 0 ∧ genesis.timestamp = 0 ∧ genesis.bits = 0 ∧ genesis.nonce = 0 ∧
        all_zero genesis.previous_block_hash ∧ all_zero genesis.merkle)) ∧
    ({ genesis with transaction_count := 7 } : header).is_valid = genesis.is_valid) :=
  ⟨by decide, C8_is_valid genesis 7 (by decide)⟩

/-- C9 (hash count-independence): `hash()` is the double hash (the engine applied twice)
of the 80-byte `to_data(false)` encoding; hence two records whose six fixed fields agree,
whatever their `transaction_count`, have the same `hash()`.  `hash` is a function of the
record alone, so repeated calls agree. -/
theorem C9_hash_count_independent (engine : List Nat → List Nat) (a b : header)
    (ha : a.wf) (hf : same_fixed a b) :
    (∃ data, a.to_data false = some data ∧ data.length = 80 ∧
      a.hash engine = some (engine (engine data))) ∧
    a.hash engine = b.hash engine := by
  constructor
  · refine ⟨a.to_data_writer [] false, to_data_eq_some a ha false, ?_, ?_⟩
    · rw [to_data_writer_length a ha false]; rfl
    · simp [header.hash, to_data_eq_some a ha false, bitcoin_hash]
  · obtain ⟨h1, h2, h3, h4, h5, h6⟩ := hf
    simp only [header.hash, header.to_data, to_data_writer_eq, header.serialized_size,
      h1, h2, h3, h4, h5, h6, Bool.false_eq_true, if_false]

theorem C9_hash_count_independent_witness :
    genesis.wf ∧ same_fixed genesis { genesis with transaction_count := 2000 } ∧
    ((∃ data, genesis.to_data false = some data ∧ data.length = 80 ∧
      genesis.hash id = some (id (id data))) ∧
    genesis.hash id = ({ genesis with transaction_count := 2000 } : header).hash id) :=
  ⟨by decide, by decide,
    C9_hash_count_independent id genesis { genesis with transaction_count := 2000 }
      (by decide) (by decide)⟩

/-- C10 (equality): for all records `a`, `b`, `c`: `a == b` is true iff all seven fields
are pairwise equal; `==` is reflexive, symmetric and transitive; and `a != b` is the
negation of `a == b`. -/
theorem C10_equality (a b c : header) :
    (a.eq b = true ↔
      (a.version = b.version ∧ a.previous_block_hash = b.previous_block_hash ∧
        a.merkle = b.merkle ∧ a.timestamp = b.timestamp ∧ a.bits = b.bits ∧
        a.nonce = b.nonce ∧ a.transaction_count = b.transaction_count)) ∧
    a.eq a = true ∧
    a.eq b = b.eq a ∧
    (a.eq b = true → b.eq c = true → a.eq c = true) ∧
    a.ne b = !(a.eq b) := by
  refine ⟨?_, ?_, ?_, ?_, rfl⟩
  · simp only [header.eq, Bool.and_eq_true, beq_iff_eq]
    tauto
  · rw [header_eq_iff]
  · rw [Bool.eq_iff_iff, header_eq_iff, header_eq_iff]
    exact eq_comm
  · simp only [header_eq_iff]
    intro h1 h2
    exact h1.trans h2

theorem C10_equality_witness :
    (genesis.eq genesis.reset = true ↔
      (genesis.version = genesis.reset.version ∧
        genesis.previous_block_hash = genesis.reset.previous_block_hash ∧
        genesis.merkle = genesis.reset.merkle ∧ genesis.timestamp = genesis.reset.timestamp ∧
        genesis.bits = genesis.reset.bits ∧ genesis.nonce = genesis.reset.nonce ∧
        genesis.transaction_count = genesis.reset.transaction_count)) ∧
    genesis.eq genesis = true ∧
    genesis.eq genesis.reset = genesis.reset.eq genesis ∧
    (genesis.eq genesis.reset = true → genesis.reset.eq null_header = true →
      genesis.eq null_header = true) ∧
    genesis.ne genesis.reset = !(genesis.eq genesis.reset) :=
  C10_equality genesis genesis.reset null_header

/-! ## The compact integer, read -/

/-- On a valid cursor over bytes that start with a complete compact integer, the read
delivers its value and advances past it. -/
theorem read_variable_uint_complete (u : underrun) (lead : Nat) (t : List Nat)
    (hb : bytes_ok (lead :: t)) (hc : compact_complete (lead :: t) = true) :
    reader.read_variable_uint_little_endian u ⟨lead :: t, true⟩
      = (compact_value (lead :: t), ⟨(lead :: t).drop (compact_width lead), true⟩) := by
  have hl : lead < 256 := hb lead (List.mem_cons_self _ _)
  have ht : bytes_ok t := fun x hx => hb x (List.mem_cons_of_mem _ hx)
  have e : reader.read_little_endian u 1 ⟨lead :: t, true⟩ = (lead, ⟨t, true⟩) := by
    rw [read_little_endian_enough u 1 (lead :: t) (by simp)]
    simp [from_le, Nat.mod_eq_of_lt hl]
  have hv : ∀ n, n ≤ t.length → from_le (t.take n) % 256 ^ n = from_le (t.take n) := by
    intro n hn
    apply Nat.mod_eq_of_lt
    have h1 := from_le_lt (t.take n) (bytes_ok_take ht n)
    rwa [List.length_take, Nat.min_eq_left hn] at h1
  simp only [compact_complete, compact_width, List.length_cons, decide_eq_true_eq] at hc
  simp only [reader.read_variable_uint_little_endian, e, compact_value, compact_width]
  split_ifs at hc ⊢ with h1 h2 h3
  · simp
  · rw [read_little_endian_enough u 2 t (by omega), hv 2 (by omega)]
    simp
  · rw [read_little_endian_enough u 4 t (by omega), hv 4 (by omega)]
    simp
  · rw [read_little_endian_enough u 8 t (by omega), hv 8 (by omega)]
    simp

/-- With the flag on, a decode succeeds exactly on 80 bytes followed by a complete
compact integer. -/
theorem from_data_chunk_true_iff (u : underrun) (self : header) (data : List Nat) (hb : bytes_ok data) :
    (self.from_data_chunk u data true).1 = true
      ↔ 80 ≤ data.length ∧ compact_complete (data.drop 80) = true := by
  constructor
  · intro h
    have hl := from_data_true_length u self data true h
    refine ⟨hl, ?_⟩
    rw [from_data_chunk_long u self data true hl] at h
    simp only [if_true] at h
    rw [read_variable_uint_valid_eq u _ (bytes_ok_drop hb 80)] at h
    exact h
  · rintro ⟨hl, hc⟩
    rw [from_data_chunk_long u self data true hl]
    simp only [if_true]
    rw [read_variable_uint_valid_eq u _ (bytes_ok_drop hb 80)]
    exact hc

/-- C11 (decoded transaction_count): after a successful `from_data` with the flag off,
`transaction_count` is 0 whatever the target held before and whatever bytes follow the
first 80; after a successful `from_data` with the flag on it is the compact integer that
starts at offset 80.  For every 80-byte `head` followed by `FD 2C 01` (and any `tail`),
decoding with the flag on succeeds, `transaction_count` is 300 and exactly 83 bytes are
consumed. -/
theorem C11_decoded_transaction_count (u : underrun) (self : header)
    (data head tail : List Nat) (hb : bytes_ok data) (hh : head.length = 80) :
    ((self.from_data_chunk u data false).1 = true →
      (self.from_data_chunk u data false).2.1.transaction_count = 0) ∧
    ((self.from_data_chunk u data true).1 = true →
      (self.from_data_chunk u data true).2.1.transaction_count
        = compact_value (data.drop 80)) ∧
    (self.from_data_chunk u (head ++ ([0xfd, 0x2c, 0x01] ++ tail)) true).1 = true ∧
    (self.from_data_chunk u (head ++ ([0xfd, 0x2c, 0x01] ++ tail)) true).2.1.transaction_count
      = 300 ∧
    consumed (head ++ ([0xfd, 0x2c, 0x01] ++ tail))
      (self.from_data_chunk u (head ++ ([0xfd, 0x2c, 0x01] ++ tail)) true).2.2 = 83 := by
  refine ⟨?_, ?_, ?_⟩
  · intro h
    rw [from_data_chunk_long u self data false (from_data_true_length u self data false h)]
    rfl
  · intro h
    have hl := from_data_true_length u self data true h
    have hc := ((from_data_chunk_true_iff u self data hb).mp h).2
    rw [from_data_chunk_long u self data true hl]
    simp only [if_true]
    cases hd : data.drop 80 with
    | nil => rw [hd] at hc; simp [compact_complete] at hc
    | cons lead t =>
      rw [hd] at hc
      have hbd : bytes_ok (lead :: t) := hd ▸ bytes_ok_drop hb 80
      rw [read_variable_uint_complete u lead t hbd hc]
      simp
  · have hl : 80 ≤ (head ++ ([0xfd, 0x2c, 0x01] ++ tail)).length := by
      simp only [List.length_append, hh]; omega
    have hd : (head ++ ([0xfd, 0x2c, 0x01] ++ tail)).drop 80 = [0xfd, 0x2c, 0x01] ++ tail :=
      List.drop_left' hh
    have hr : reader.read_variable_uint_little_endian u ⟨[0xfd, 0x2c, 0x01] ++ tail, true⟩
        = (300, ⟨tail, true⟩) := by
      simp [reader.read_variable_uint_little_endian, reader.read_little_endian,
        reader.read_bytes, from_le]
    rw [from_data_chunk_long u self _ true hl, hd, hr]
    simp only [if_true, consumed, List.length_append, hh, List.length_cons, List.length_nil]
    refine ⟨trivial, trivial, ?_⟩
    omega

theorem C11_decoded_transaction_count_witness :
    bytes_ok (genesis.to_data_writer [] true) ∧ (List.replicate 80 7).length = 80 ∧
    (((genesis.from_data_chunk short_fill (genesis.to_data_writer [] true) false).1 = true →
      (genesis.from_data_chunk short_fill
        (genesis.to_data_writer [] true) false).2.1.transaction_count = 0) ∧
    ((genesis.from_data_chunk short_fill (genesis.to_data_writer [] true) true).1 = true →
      (genesis.from_data_chunk short_fill
        (genesis.to_data_writer [] true) true).2.1.transaction_count
        = compact_value ((genesis.to_data_writer [] true).drop 80)) ∧
    (genesis.from_data_chunk short_fill
      (List.replicate 80 7 ++ ([0xfd, 0x2c, 0x01] ++ [9, 9])) true).1 = true ∧
    (genesis.from_data_chunk short_fill
      (List.replicate 80 7 ++ ([0xfd, 0x2c, 0x01] ++ [9, 9])) true).2.1.transaction_count
      = 300 ∧
    consumed (List.replicate 80 7 ++ ([0xfd, 0x2c, 0x01] ++ [9, 9]))
      (genesis.from_data_chunk short_fill
        (List.replicate 80 7 ++ ([0xfd, 0x2c, 0x01] ++ [9, 9])) true).2.2 = 83) :=
  ⟨by decide, by decide,
    C11_decoded_transaction_count short_fill genesis (genesis.to_data_writer [] true)
      (List.replicate 80 7) [9, 9] (by decide) (by decide)⟩

/-! ## Sizes -/

/-- C12 (size formula): for every record `serialized_size(false)` is 80 and
`serialized_size(true)` is 80 + 1 when `transaction_count < 253`, 80 + 3 when it is in
253..65535, 80 + 5 when it is in 65536..4294967295 and 80 + 9 otherwise; the compact
integer written by `to_data(true)` has that same width for every value, the boundaries
included. -/
theorem C12_size_formula (r : header) (hw : r.wf) :
    r.serialized_size false = 80 ∧
    (r.transaction_count < 253 → r.serialized_size true = 80 + 1) ∧
    (253 ≤ r.transaction_count → r.transaction_count ≤ 65535 →
      r.serialized_size true = 80 + 3) ∧
    (65536 ≤ r.transaction_count → r.transaction_count ≤ 4294967295 →
      r.serialized_size true = 80 + 5) ∧
    (4294967296 ≤ r.transaction_count → r.serialized_size true = 80 + 9) ∧
    (writer.write_variable_uint_little_endian [] r.transaction_count).length + 80
      = r.serialized_size true ∧
    r.to_data true = some (r.to_data_writer [] false ++
      writer.write_variable_uint_little_endian [] r.transaction_count) := by
  refine ⟨rfl, ?_, ?_, ?_, ?_, ?_, ?_⟩
  · intro h
    simp [header.serialized_size, variable_uint_size, h]
  · intro h1 h2
    have h3 : ¬ r.transaction_count < 253 := by omega
    simp [header.serialized_size, variable_uint_size, h3, h2]
  · intro h1 h2
    have h3 : ¬ r.transaction_count < 253 := by omega
    have h4 : ¬ r.transaction_count ≤ 65535 := by omega
    simp [header.serialized_size, variable_uint_size, h3, h4, h2]
  · intro h1
    have h3 : ¬ r.transaction_count < 253 := by omega
    have h4 : ¬ r.transaction_count ≤ 65535 := by omega
    have h5 : ¬ r.transaction_count ≤ 4294967295 := by omega
    simp [header.serialized_size, variable_uint_size, h3, h4, h5]
  · rw [write_variable_uint_length]
    simp [header.serialized_size, Nat.add_comm]
  · rw [to_data_eq_some r hw true, to_data_writer_eq, to_data_writer_eq]
    simp

/-- The records at the six boundary values of the compact integer. -/
theorem C12_size_formula_witness :
    (({ genesis with transaction_count := 252 } : header).wf ∧
      ({ genesis with transaction_count := 252 } : header).serialized_size true = 81) ∧
    (({ genesis with transaction_count := 253 } : header).wf ∧
      ({ genesis with transaction_count := 253 } : header).serialized_size true = 83) ∧
    (({ genesis with transaction_count := 65535 } : header).wf ∧
      ({ genesis with transaction_count := 65535 } : header).serialized_size true = 83) ∧
    (({ genesis with transaction_count := 65536 } : header).wf ∧
      ({ genesis with transaction_count := 65536 } : header).serialized_size true = 85) ∧
    (({ genesis with transaction_count := 4294967295 } : header).wf ∧
      ({ genesis with transaction_count := 4294967295 } : header).serialized_size true = 85) ∧
    (({ genesis with transaction_count := 4294967296 } : header).wf ∧
      ({ genesis with transaction_count := 4294967296 } : header).serialized_size true = 89) :=
  ⟨⟨by decide, (C12_size_formula _ (by decide)).2.1 (by decide)⟩,
   ⟨by decide, (C12_size_formula _ (by decide)).2.2.1 (by decide) (by decide)⟩,
   ⟨by decide, (C12_size_formula _ (by decide)).2.2.1 (by decide) (by decide)⟩,
   ⟨by decide, (C12_size_formula _ (by decide)).2.2.2.1 (by decide) (by decide)⟩,
   ⟨by decide, (C12_size_formula _ (by decide)).2.2.2.1 (by decide) (by decide)⟩,
   ⟨by decide, (C12_size_formula _ (by decide)).2.2.2.2.1 (by decide)⟩⟩

/-- C13, counterexample: the genesis header with `transaction_count = 100000` has
`serialized_size(true) = 85`, not 89, and `to_data(true)` appends the five bytes
`FE A0 86 01 00`, not a 9-byte form. -/
theorem C13_hundred_thousand_is_five_bytes :
    ({ genesis with transaction_count := 100000 } : header).wf ∧
    ({ genesis with transaction_count := 100000 } : header).serialized_size true = 85 ∧
    ({ genesis with transaction_count := 100000 } : header).serialized_size true ≠ 89 ∧
    ({ genesis with transaction_count := 100000 } : header).to_data true
      = some (genesis.to_data_writer [] false ++ [0xfe, 0xa0, 0x86, 0x01, 0x00]) ∧
    (writer.write_variable_uint_little_endian [] 100000).length ≠ 9 := by
  decide

/-- C13, amended: for a record with `transaction_count = 100000`, `to_data(true)` writes
the transaction count in the 5-byte variable-length form (`FE` and the value in four
little-endian bytes) after the 80 fixed bytes, and `serialized_size(true)` equals
80 + 5 = 85. -/
theorem C13_hundred_thousand (r : header) (hw : r.wf) (hc : r.transaction_count = 100000) :
    r.to_data true = some (r.to_data_writer [] false ++ [0xfe, 0xa0, 0x86, 0x01, 0x00]) ∧
    (r.to_data_writer [] false).length = 80 ∧
    r.serialized_size true = 80 + 5 := by
  refine ⟨?_, ?_, ?_⟩
  · rw [to_data_eq_some r hw true, to_data_writer_eq, to_data_writer_eq, hc]
    simp [writer.write_variable_uint_little_endian, to_le]
  · rw [to_data_writer_length r hw false]; rfl
  · simp [header.serialized_size, variable_uint_size, hc]

theorem C13_hundred_thousand_witness :
    ({ genesis with transaction_count := 100000 } : header).wf ∧
    ({ genesis with transaction_count := 100000 } : header).transaction_count = 100000 ∧
    (({ genesis with transaction_count := 100000 } : header).to_data true
      = some (({ genesis with transaction_count := 100000 } : header).to_data_writer [] false
          ++ [0xfe, 0xa0, 0x86, 0x01, 0x00]) ∧
    (({ genesis with transaction_count := 100000 } : header).to_data_writer [] false).length
      = 80 ∧
    ({ genesis with transaction_count := 100000 } : header).serialized_size true = 80 + 5) :=
  ⟨by decide, rfl,
    C13_hundred_thousand { genesis with transaction_count := 100000 } (by decide) rfl⟩

/-! ## The first 80 bytes -/

theorem all_zero_append (a b : List Nat) : all_zero (a ++ b) ↔ all_zero a ∧ all_zero b := by
  simp only [all_zero, List.mem_append]
  constructor
  · intro h; exact ⟨fun x hx => h x (Or.inl hx), fun x hx => h x (Or.inr hx)⟩
  · rintro ⟨h1, h2⟩ x (hx | hx)
    · exact h1 x hx
    · exact h2 x hx

theorem from_le_eq_zero_iff (l : List Nat) : from_le l = 0 ↔ all_zero l := by
  induction l with
  | nil => simp [from_le, all_zero]
  | cons b bs ih =>
    simp only [from_le, all_zero, List.mem_cons, forall_eq_or_imp]
    rw [← all_zero, ← ih]
    omega

/-- The first 80 bytes of a buffer are its six fixed-field slices. -/
theorem take_eighty (data : List Nat) (h : 80 ≤ data.length) :
    data.take 80 = slice data 0 4 ++ (slice data 4 32 ++ (slice data 36 32 ++
      (slice data 68 4 ++ (slice data 72 4 ++ slice data 76 4)))) := by
  have hx : (slice data 0 4 ++ (slice data 4 32 ++ (slice data 36 32 ++
      (slice data 68 4 ++ (slice data 72 4 ++ slice data 76 4))))) ++ data.drop 80 = data := by
    simp only [List.append_assoc, slice, List.drop_zero]
    exact (split_fields data).symm
  have hlen : (slice data 0 4 ++ (slice data 4 32 ++ (slice data 36 32 ++
      (slice data 68 4 ++ (slice data 72 4 ++ slice data 76 4))))).length = 80 := by
    simp only [slice, List.length_append, List.length_take, List.length_drop]
    omega
  conv_lhs => rw [← hx]
  exact List.take_left' hlen

theorem slice_length (data : List Nat) (off len : Nat) (h : off + len ≤ data.length) :
    (slice data off len).length = len := by
  simp only [slice, List.length_take, List.length_drop]
  omega

/-- Re-encoding a decoded 32-bit field gives back its four bytes. -/
theorem to_le_from_le_slice (data : List Nat) (off : Nat) (hb : bytes_ok data)
    (h : off + 4 ≤ data.length) :
    to_le 4 (from_le (slice data off 4) % 256 ^ 4) = slice data off 4 := by
  rw [Nat.mod_eq_of_lt (from_le_slice_lt data off hb)]
  have h1 := to_le_from_le (slice data off 4) (bytes_ok_take (bytes_ok_drop hb off) 4)
  rwa [slice_length data off 4 h] at h1

/-- After a decode with the flag off, the record is invalid exactly when the first 80
bytes are zero. -/
theorem is_valid_after_decode (u : underrun) (self : header) (data : List Nat)
    (hb : bytes_ok data) (hl : 80 ≤ data.length) :
    (self.from_data_chunk u data false).2.1.is_valid = false ↔ all_zero (data.take 80) := by
  have z : ∀ off, from_le (slice data off 4) % 256 ^ 4 = 0 ↔ all_zero (slice data off 4) := by
    intro off
    rw [Nat.mod_eq_of_lt (from_le_slice_lt data off hb)]
    exact from_le_eq_zero_iff _
  have hp := all_zero_iff (slice data 4 32) (slice_length data 4 32 (by omega))
  have hm := all_zero_iff (slice data 36 32) (slice_length data 36 32 (by omega))
  rw [from_data_chunk_long u self data false hl, is_valid_false_iff, take_eighty data hl]
  simp only [Bool.false_eq_true, if_false, all_zero_append, z, hp, hm]

/-- C14 (a successful decode need not produce a valid record): decoding 80 zero bytes
with the flag off returns true and yields a record with `is_valid()` false and
`transaction_count` 0; for every buffer of at least 80 bytes decoded with the flag off,
the decode succeeds and `is_valid()` afterwards is false iff the first 80 bytes are all
zero. -/
theorem C14_success_need_not_be_valid (u : underrun) (self : header) (data : List Nat)
    (hb : bytes_ok data) (hl : 80 ≤ data.length) :
    (self.from_data_chunk u (List.replicate 80 0) false).1 = true ∧
    (self.from_data_chunk u (List.replicate 80 0) false).2.1.is_valid = false ∧
    (self.from_data_chunk u (List.replicate 80 0) false).2.1.transaction_count = 0 ∧
    (self.from_data_chunk u data false).1 = true ∧
    ((self.from_data_chunk u data false).2.1.is_valid = false ↔ all_zero (data.take 80)) := by
  have h80 : 80 ≤ (List.replicate 80 0).length := by simp
  have hb0 : bytes_ok (List.replicate 80 0) := by decide
  refine ⟨?_, ?_, ?_, ?_, is_valid_after_decode u self data hb hl⟩
  · rw [from_data_chunk_long u self _ false h80]; rfl
  · rw [is_valid_after_decode u self _ hb0 h80]
    decide
  · rw [from_data_chunk_long u self _ false h80]; rfl
  · rw [from_data_chunk_long u self data false hl]; rfl

theorem C14_success_need_not_be_valid_witness :
    bytes_ok (genesis.to_data_writer [] true) ∧ 80 ≤ (genesis.to_data_writer [] true).length ∧
    ((genesis.from_data_chunk zero_fill (List.replicate 80 0) false).1 = true ∧
    (genesis.from_data_chunk zero_fill (List.replicate 80 0) false).2.1.is_valid = false ∧
    (genesis.from_data_chunk zero_fill (List.replicate 80 0) false).2.1.transaction_count = 0 ∧
    (genesis.from_data_chunk zero_fill (genesis.to_data_writer [] true) false).1 = true ∧
    ((genesis.from_data_chunk zero_fill (genesis.to_data_writer [] true) false).2.1.is_valid
        = false
      ↔ all_zero ((genesis.to_data_writer [] true).take 80))) :=
  ⟨by decide, by decide,
    C14_success_need_not_be_valid zero_fill genesis (genesis.to_data_writer [] true)
      (by decide) (by decide)⟩

/-- C17 (decode then encode reproduces the fixed part): for every byte buffer of at least
80 bytes, after `from_data(b, false)` the encoding `to_data(false)` is the first 80 bytes
of the buffer. -/
theorem C17_decode_then_encode (u : underrun) (self : header) (data : List Nat)
    (hb : bytes_ok data) (hl : 80 ≤ data.length) :
    (self.from_data_chunk u data false).1 = true ∧
    (self.from_data_chunk u data false).2.1.to_data false = some (data.take 80) := by
  constructor
  · rw [from_data_chunk_long u self data false hl]; rfl
  · have hw : (self.from_data_chunk u data false).2.1.to_data_writer [] false
        = data.take 80 := by
      rw [from_data_chunk_long u self data false hl, to_data_writer_eq, take_eighty data hl]
      simp only [Bool.false_eq_true, if_false, List.nil_append, List.append_nil,
        to_le_from_le_slice data _ hb (show 0 + 4 ≤ data.length by omega),
        to_le_from_le_slice data _ hb (show 68 + 4 ≤ data.length by omega),
        to_le_from_le_slice data _ hb (show 72 + 4 ≤ data.length by omega),
        to_le_from_le_slice data _ hb (show 76 + 4 ≤ data.length by omega)]
    have hlen : (data.take 80).length = 80 := by
      rw [List.length_take]; omega
    simp only [header.to_data, hw, hlen, header.serialized_size, Bool.false_eq_true,
      if_false, if_true]

theorem C17_decode_then_encode_witness :
    bytes_ok (genesis.to_data_writer [] true) ∧ 80 ≤ (genesis.to_data_writer [] true).length ∧
    ((null_header.from_data_chunk zero_fill (genesis.to_data_writer [] true) false).1 = true ∧
    (null_header.from_data_chunk zero_fill (genesis.to_data_writer [] true) false).2.1.to_data
        false
      = some ((genesis.to_data_writer [] true).take 80)) :=
  ⟨by decide, by decide,
    C17_decode_then_encode zero_fill null_header (genesis.to_data_writer [] true)
      (by decide) (by decide)⟩

/-! ## Independence of the target, injectivity, the flag -/

/-- The decoder overwrites every member: its outcome does not depend on the target. -/
theorem from_data_target_irrelevant (u : underrun) (a b : header) (source : reader)
    (f : Bool) : a.from_data u source f = b.from_data u source f := by
  cases a; cases b
  rfl

/-- C16 (no stale data survives a decode): for every byte buffer and flag value and any
two target records `a`, `b` with arbitrary prior contents, `from_data` returns the same
boolean on both and leaves `a` and `b` equal under `operator==`, whether the decode
succeeds or fails. -/
theorem C16_no_stale_data (u : underrun) (a b : header) (data : List Nat) (f : Bool) :
    (a.from_data_chunk u data f).1 = (b.from_data_chunk u data f).1 ∧
    ((a.from_data_chunk u data f).2.1).eq (b.from_data_chunk u data f).2.1 = true := by
  unfold header.from_data_chunk
  rw [from_data_target_irrelevant u a b ⟨data, true⟩ f]
  exact ⟨rfl, (header_eq_iff _ _).mpr rfl⟩

theorem to_le_four_inj (v w : Nat) (hv : v < 2 ^ 32) (hw : w < 2 ^ 32)
    (h : to_le 4 v = to_le 4 w) : v = w := by
  have h1 := congrArg from_le h
  rw [from_le_to_le, from_le_to_le] at h1
  rwa [Nat.mod_eq_of_lt (by omega), Nat.mod_eq_of_lt (by omega)] at h1

/-- C18 (the fixed-field encoding is injective): for all records `a` and `b`,
`to_data(false)` of `a` equals `to_data(false)` of `b` iff `a` and `b` agree on all six
fixed fields; `hash()` applies the engine to exactly this encoding. -/
theorem C18_fixed_encoding_injective (a b : header) (ha : a.wf) (hb : b.wf) :
    a.to_data false = b.to_data false ↔ same_fixed a b := by
  rw [to_data_eq_some a ha false, to_data_eq_some b hb false, Option.some.injEq,
    to_data_writer_eq, to_data_writer_eq]
  obtain ⟨av, ⟨ap, -⟩, ⟨am, -⟩, at4, ab, an, -⟩ := ha
  obtain ⟨bv, ⟨bp, -⟩, ⟨bm, -⟩, bt4, bb, bn, -⟩ := hb
  simp only [Bool.false_eq_true, if_false, List.nil_append, List.append_nil]
  constructor
  · intro h
    obtain ⟨h1, h⟩ := List.append_inj h (by rw [to_le_length, to_le_length])
    obtain ⟨h2, h⟩ := List.append_inj h (by rw [ap, bp])
    obtain ⟨h3, h⟩ := List.append_inj h (by rw [am, bm])
    obtain ⟨h4, h⟩ := List.append_inj h (by rw [to_le_length, to_le_length])
    obtain ⟨h5, h6⟩ := List.append_inj h (by rw [to_le_length, to_le_length])
    exact ⟨to_le_four_inj _ _ av bv h1, h2, h3, to_le_four_inj _ _ at4 bt4 h4,
      to_le_four_inj _ _ ab bb h5, to_le_four_inj _ _ an bn h6⟩
  · rintro ⟨h1, h2, h3, h4, h5, h6⟩
    rw [h1, h2, h3, h4, h5, h6]

theorem C18_fixed_encoding_injective_witness :
    genesis.wf ∧ ({ genesis with transaction_count := 2000 } : header).wf ∧
    (genesis.to_data false = ({ genesis with transaction_count := 2000 } : header).to_data false
      ↔ same_fixed genesis { genesis with transaction_count := 2000 }) :=
  ⟨by decide, by decide,
    C18_fixed_encoding_injective genesis { genesis with transaction_count := 2000 }
      (by decide) (by decide)⟩

/-- C19 (the flag only appends): for every record, `to_data(true)` equals `to_data(false)`
followed by the compact-integer encoding of `transaction_count`, so the first 80 bytes of
the encoding are the same under both flag values. -/
theorem C19_flag_only_appends (r : header) (hw : r.wf) :
    ∃ d0 d1, r.to_data false = some d0 ∧ r.to_data true = some d1 ∧
      d1 = d0 ++ writer.write_variable_uint_little_endian [] r.transaction_count ∧
      d0.length = 80 ∧ d1.take 80 = d0 := by
  have hlen : (r.to_data_writer [] false).length = 80 := by
    rw [to_data_writer_length r hw false]; rfl
  have happ : r.to_data_writer [] true = r.to_data_writer [] false ++
      writer.write_variable_uint_little_endian [] r.transaction_count := by
    rw [to_data_writer_eq, to_data_writer_eq]
    simp
  refine ⟨r.to_data_writer [] false, r.to_data_writer [] true, to_data_eq_some r hw false,
    to_data_eq_some r hw true, happ, hlen, ?_⟩
  rw [happ]
  exact List.take_left' hlen

theorem C19_flag_only_appends_witness :
    ({ genesis with transaction_count := 2000 } : header).wf ∧
    ∃ d0 d1, ({ genesis with transaction_count := 2000 } : header).to_data false = some d0 ∧
      ({ genesis with transaction_count := 2000 } : header).to_data true = some d1 ∧
      d1 = d0 ++ writer.write_variable_uint_little_endian []
        ({ genesis with transaction_count := 2000 } : header).transaction_count ∧
      d0.length = 80 ∧ d1.take 80 = d0 :=
  ⟨by decide, C19_flag_only_appends { genesis with transaction_count := 2000 } (by decide)⟩

/-! ## The factory -/

/-- What `factory_from_data` returns: the record `from_data` leaves, whatever the fresh
instance held; after a failed decode its six fixed fields are zero, and it is the null
record with the flag off (so for every buffer of fewer than 80 bytes) and for a cursor
whose failed reads deliver zero bytes. -/
theorem factory_from_data_record (u : underrun) (fresh other : header) (data : List Nat) (f : Bool) :
    header.factory_from_data u fresh data f = (fresh.from_data_chunk u data f).2.1 ∧
    header.factory_from_data u fresh data f = header.factory_from_data u other data f ∧
    ((fresh.from_data_chunk u data f).1 = false →
      (header.factory_from_data u fresh data f).is_valid = false ∧
      same_fixed (header.factory_from_data u fresh data f) null_header ∧
      (header.factory_from_data u fresh data f).transaction_count
        = (if f then
            ((reader.after_fixed u ⟨data, true⟩).read_variable_uint_little_endian u).1
           else 0) ∧
      (f = false → header.factory_from_data u fresh data f = null_header)) ∧
    ((fresh.from_data_chunk zero_fill data f).1 = false →
      header.factory_from_data zero_fill fresh data f = null_header) ∧
    (data.length < 80 → header.factory_from_data u fresh data false = null_header) := by
  refine ⟨rfl, ?_, ?_, ?_, ?_⟩
  · unfold header.factory_from_data header.from_data_chunk
    rw [from_data_target_irrelevant u fresh other]
  · intro h
    unfold header.factory_from_data
    unfold header.from_data_chunk at h ⊢
    rw [from_data_false_record u fresh ⟨data, true⟩ f h]
    refine ⟨rfl, ⟨rfl, rfl, rfl, rfl, rfl, rfl⟩, rfl, ?_⟩
    intro hf
    subst hf
    rfl
  · intro h
    unfold header.factory_from_data
    unfold header.from_data_chunk at h ⊢
    rw [from_data_false_record zero_fill fresh ⟨data, true⟩ f h]
    cases f
    · rfl
    · rw [from_data_result] at h
      simp only [if_true] at h ⊢
      rw [read_variable_uint_zero_fill _ h]
      rfl
  · intro hl
    have h : (fresh.from_data_chunk u data false).1 = false := by
      cases hr : (fresh.from_data_chunk u data false).1
      · rfl
      · have := from_data_true_length u fresh data false hr
        omega
    unfold header.factory_from_data
    unfold header.from_data_chunk at h ⊢
    rw [from_data_false_record u fresh ⟨data, true⟩ false h]
    rfl

/-- C15 (factory on failure), the code at the failing input: for 80 zero bytes followed
by `FD 2C` and the flag on, decoding fails for every cursor behaviour `u` and every fresh
instance, and `factory_from_data` returns, without raising, a record whose six fixed
fields are zero (`is_valid()` is false) and whose `transaction_count` is the value the
failed `read_variable_uint_little_endian` returned: `from_data` calls `reset()` on
failure, and `reset()` does not assign `transaction_count`.  The returned record is `==`
to the null record only if that value is zero; with a cursor that delivers the byte it
read it is 44 and the record is not `==` to the null record. -/
theorem C15_factory_failed_decode_keeps_read_value (u : underrun) (fresh : header) :
    (fresh.from_data_chunk u (List.replicate 80 0 ++ [0xfd, 0x2c]) true).1 = false ∧
    header.factory_from_data u fresh (List.replicate 80 0 ++ [0xfd, 0x2c]) true
      = ⟨0, null_hash, null_hash, 0, 0, 0, from_le (u 2 [0x2c]) % 256 ^ 2⟩ ∧
    (header.factory_from_data u fresh (List.replicate 80 0 ++ [0xfd, 0x2c]) true).is_valid
      = false ∧
    ((header.factory_from_data u fresh (List.replicate 80 0 ++ [0xfd, 0x2c]) true).eq
        null_header = true
      ↔ from_le (u 2 [0x2c]) % 256 ^ 2 = 0) ∧
    (header.factory_from_data short_fill fresh
      (List.replicate 80 0 ++ [0xfd, 0x2c]) true).transaction_count = 44 ∧
    (header.factory_from_data short_fill fresh
      (List.replicate 80 0 ++ [0xfd, 0x2c]) true).eq null_header = false := by
  have hh : (List.replicate 80 0).length = 80 := by simp
  have hl : 80 ≤ (List.replicate 80 0 ++ [0xfd, 0x2c]).length := by decide
  have hd : (List.replicate 80 0 ++ [0xfd, 0x2c]).drop 80 = [0xfd, 0x2c] :=
    List.drop_left' hh
  have hr : ∀ v : underrun, reader.read_variable_uint_little_endian v ⟨[0xfd, 0x2c], true⟩
      = (from_le (v 2 [0x2c]) % 256 ^ 2, ⟨[0x2c], false⟩) := by
    intro v
    simp [reader.read_variable_uint_little_endian, reader.read_little_endian,
      reader.read_bytes, from_le]
  have e : ∀ v : underrun,
      fresh.from_data_chunk v (List.replicate 80 0 ++ [0xfd, 0x2c]) true
        = (false, ⟨0, null_hash, null_hash, 0, 0, 0, from_le (v 2 [0x2c]) % 256 ^ 2⟩,
            ⟨[0x2c], false⟩) := by
    intro v
    rw [from_data_chunk_long v fresh _ true hl, hd, hr v]
    rfl
  have h44 : from_le (short_fill 2 [0x2c]) % 256 ^ 2 = 44 := by decide
  unfold header.factory_from_data
  refine ⟨?_, ?_, ?_, ?_, ?_, ?_⟩
  · rw [e u]
  · rw [e u]
  · rw [e u]; rfl
  · rw [e u, header_eq_iff]
    simp [null_header]
  · rw [e short_fill]
    exact h44
  · rw [e short_fill, h44]
    decide

/-! ## Re-encoding what was decoded -/

theorem variable_uint_size_cases (v : Nat) :
    (variable_uint_size v = 1 ↔ v < 253) ∧
    (variable_uint_size v = 3 ↔ 253 ≤ v ∧ v ≤ 65535) ∧
    (variable_uint_size v = 5 ↔ 65536 ≤ v ∧ v ≤ 4294967295) ∧
    (variable_uint_size v = 9 ↔ 4294967296 ≤ v) := by
  unfold variable_uint_size
  split_ifs <;> omega

/-- Writing the value of a complete, minimal compact integer gives back its bytes. -/
theorem write_compact_value (lead : Nat) (t : List Nat) (hb : bytes_ok (lead :: t))
    (hc : compact_complete (lead :: t) = true) (hm : compact_minimal (lead :: t) = true) :
    writer.write_variable_uint_little_endian [] (compact_value (lead :: t))
      = (lead :: t).take (compact_width lead) := by
  have ht : bytes_ok t := fun x hx => hb x (List.mem_cons_of_mem _ hx)
  have hv : ∀ n, n ≤ t.length → to_le n (from_le (t.take n)) = t.take n := by
    intro n hn
    have h2 := to_le_from_le (t.take n) (bytes_ok_take ht n)
    rwa [List.length_take, Nat.min_eq_left hn] at h2
  simp only [compact_complete, List.length_cons, decide_eq_true_eq] at hc
  simp only [compact_minimal, decide_eq_true_eq] at hm
  have hs := variable_uint_size_cases (compact_value (lead :: t))
  by_cases h1 : lead < 253
  · have hw : compact_width lead = 1 := by simp [compact_width, h1]
    have hval : compact_value (lead :: t) = lead := by simp [compact_value, h1]
    rw [hw, hval]
    simp [writer.write_variable_uint_little_endian, h1]
  · by_cases h2 : lead = 253
    · have hw : compact_width lead = 3 := by simp [compact_width, h2]
      have hval : compact_value (lead :: t) = from_le (t.take 2) := by
        simp [compact_value, h2]
      rw [hw] at hc hm
      have hr := hs.2.1.mp hm.symm
      rw [hw]
      rw [hval] at hr ⊢
      have e1 : ¬ from_le (t.take 2) < 253 := by omega
      simp [writer.write_variable_uint_little_endian, e1, hr.2, hv 2 (by omega), h2]
    · by_cases h3 : lead = 254
      · have hw : compact_width lead = 5 := by simp [compact_width, h3]
        have hval : compact_value (lead :: t) = from_le (t.take 4) := by
          simp [compact_value, h3]
        rw [hw] at hc hm
        have hr := hs.2.2.1.mp hm.symm
        rw [hw]
        rw [hval] at hr ⊢
        have e1 : ¬ from_le (t.take 4) < 253 := by omega
        have e2 : ¬ from_le (t.take 4) ≤ 65535 := by omega
        simp [writer.write_variable_uint_little_endian, e1, e2, hr.2, hv 4 (by omega), h3]
      · have hl : lead < 256 := hb lead (List.mem_cons_self _ _)
        have h4 : lead = 255 := by omega
        have hw : compact_width lead = 9 := by simp [compact_width, h4]
        have hval : compact_value (lead :: t) = from_le (t.take 8) := by
          simp [compact_value, h4]
        rw [hw] at hc hm
        have hr := hs.2.2.2.mp hm.symm
        rw [hw]
        rw [hval] at hr ⊢
        have e1 : ¬ from_le (t.take 8) < 253 := by omega
        have e2 : ¬ from_le (t.take 8) ≤ 65535 := by omega
        have e3 : ¬ from_le (t.take 8) ≤ 4294967295 := by omega
        simp [writer.write_variable_uint_little_endian, e1, e2, e3, hv 8 (by omega), h4]

/-- Re-encoding, with the flag on, the record decoded from a buffer whose compact integer
is minimal gives back the bytes the decode consumed. -/
theorem reencode_minimal (u : underrun) (self : header) (data : List Nat)
    (hb : bytes_ok data) (hs : (self.from_data_chunk u data true).1 = true)
    (hm : compact_minimal (data.drop 80) = true) :
    (self.from_data_chunk u data true).2.1.to_data true
      = some (data.take (consumed data (self.from_data_chunk u data true).2.2)) := by
  have hl := from_data_true_length u self data true hs
  have hc := ((from_data_chunk_true_iff u self data hb).mp hs).2
  cases hd : data.drop 80 with
  | nil => rw [hd] at hc; simp [compact_complete] at hc
  | cons lead t =>
    rw [hd] at hc hm
    have hbd : bytes_ok (lead :: t) := hd ▸ bytes_ok_drop hb 80
    have hlen : (lead :: t).length = data.length - 80 := by rw [← hd, List.length_drop]
    have hcw : compact_width lead ≤ (lead :: t).length := by
      simpa [compact_complete] using hc
    have hmw : compact_width lead = variable_uint_size (compact_value (lead :: t)) := by
      simpa [compact_minimal] using hm
    rw [from_data_chunk_long u self data true hl, hd,
      read_variable_uint_complete u lead t hbd hc]
    simp only [if_true]
    have hcons : consumed data ⟨(lead :: t).drop (compact_width lead), true⟩
        = 80 + compact_width lead := by
      simp only [consumed, List.length_drop]
      omega
    have htake : data.take (80 + compact_width lead)
        = data.take 80 ++ (lead :: t).take (compact_width lead) := by
      rw [List.take_add, hd]
    rw [hcons, htake]
    have hwri : ∀ r : header,
        r = ⟨from_le (slice data 0 4) % 256 ^ 4, slice data 4 32, slice data 36 32,
          from_le (slice data 68 4) % 256 ^ 4, from_le (slice data 72 4) % 256 ^ 4,
          from_le (slice data 76 4) % 256 ^ 4, compact_value (lead :: t)⟩ →
        r.to_data_writer [] true
          = data.take 80 ++ (lead :: t).take (compact_width lead) := by
      intro r hr
      rw [to_data_writer_eq, take_eighty data hl, hr]
      simp only [if_true, List.nil_append, List.append_assoc,
        write_compact_value lead t hbd hc hm,
        to_le_from_le_slice data _ hb (show 0 + 4 ≤ data.length by omega),
        to_le_from_le_slice data _ hb (show 68 + 4 ≤ data.length by omega),
        to_le_from_le_slice data _ hb (show 72 + 4 ≤ data.length by omega),
        to_le_from_le_slice data _ hb (show 76 + 4 ≤ data.length by omega)]
    have hl80 : (data.take 80).length = 80 := by rw [List.length_take]; omega
    have hlw : ((lead :: t).take (compact_width lead)).length = compact_width lead := by
      rw [List.length_take]; omega
    simp only [header.to_data, hwri _ rfl, header.serialized_size, if_true,
      List.length_append, hl80, hlw, ← hmw]

/-- C20 (decoding with the flag on is not injective on bytes): on 80 zero bytes followed
by the non-minimal compact integer `FD 05 00`, `from_data(b, true)` succeeds and consumes
83 bytes, but `to_data(true)` of the decoded record is the 81-byte buffer ending in `05`:
it differs from `b` and is shorter than what was consumed.  Whenever the compact integer
of a buffer is in minimal form and the decode succeeds, the re-encoding equals the
consumed bytes. -/
theorem C20_decode_not_injective (u : underrun) (self : header) (data : List Nat)
    (hb : bytes_ok data) (hs : (self.from_data_chunk u data true).1 = true)
    (hm : compact_minimal (data.drop 80) = true) :
    (self.from_data_chunk u (List.replicate 80 0 ++ [0xfd, 0x05, 0x00]) true).1 = true ∧
    consumed (List.replicate 80 0 ++ [0xfd, 0x05, 0x00])
      (self.from_data_chunk u (List.replicate 80 0 ++ [0xfd, 0x05, 0x00]) true).2.2 = 83 ∧
    (self.from_data_chunk u (List.replicate 80 0 ++ [0xfd, 0x05, 0x00]) true).2.1.to_data true
      = some (List.replicate 80 0 ++ [0x05]) ∧
    List.replicate 80 0 ++ [0x05] ≠ List.replicate 80 0 ++ [0xfd, 0x05, 0x00] ∧
    (List.replicate 80 0 ++ [0x05]).length < 83 ∧
    compact_minimal [0xfd, 0x05, 0x00] = false ∧
    (self.from_data_chunk u data true).2.1.to_data true
      = some (data.take (consumed data (self.from_data_chunk u data true).2.2)) := by
  have hh : (List.replicate 80 0).length = 80 := by simp
  have hl : 80 ≤ (List.replicate 80 0 ++ [0xfd, 0x05, 0x00]).length := by decide
  have hd : (List.replicate 80 0 ++ [0xfd, 0x05, 0x00]).drop 80 = [0xfd, 0x05, 0x00] :=
    List.drop_left' hh
  have hr : reader.read_variable_uint_little_endian u ⟨[0xfd, 0x05, 0x00], true⟩
      = (5, ⟨[], true⟩) := by
    simp [reader.read_variable_uint_little_endian, reader.read_little_endian,
      reader.read_bytes, from_le]
  have e : self.from_data_chunk u (List.replicate 80 0 ++ [0xfd, 0x05, 0x00]) true
      = (true, ⟨0, null_hash, null_hash, 0, 0, 0, 5⟩, ⟨[], true⟩) := by
    rw [from_data_chunk_long u self _ true hl, hd, hr]
    decide
  rw [e]
  exact ⟨rfl, by decide, by decide, by decide, by decide, by decide,
    reencode_minimal u self data hb hs hm⟩

theorem C20_decode_not_injective_witness :
    bytes_ok (List.replicate 80 7 ++ [0xfd, 0x2c, 0x01, 9]) ∧
    (genesis.from_data_chunk short_fill (List.replicate 80 7 ++ [0xfd, 0x2c, 0x01, 9]) true).1
      = true ∧
    compact_minimal ((List.replicate 80 7 ++ [0xfd, 0x2c, 0x01, 9]).drop 80) = true ∧
    (genesis.from_data_chunk short_fill
      (List.replicate 80 7 ++ [0xfd, 0x2c, 0x01, 9]) true).2.1.to_data true
      = some ((List.replicate 80 7 ++ [0xfd, 0x2c, 0x01, 9]).take
          (consumed (List.replicate 80 7 ++ [0xfd, 0x2c, 0x01, 9])
            (genesis.from_data_chunk short_fill
              (List.replicate 80 7 ++ [0xfd, 0x2c, 0x01, 9]) true).2.2)) :=
  ⟨by decide, by decide, by decide,
    (C20_decode_not_injective short_fill genesis (List.replicate 80 7 ++ [0xfd, 0x2c, 0x01, 9])
      (by decide) (by decide) (by decide)).2.2.2.2.2.2⟩

end libbitcoin
